import Mathlib

/-!
Verification development for the e3db-js client library.

The JavaScript source is shallowly embedded: JS strings (and raw byte
strings) are lists of UTF-16 code units / byte values (`JStr := List Nat`),
JS objects become Lean structures, fallible code returns `Option`/`Except`,
and the `libsodium`/`base64url` external libraries are replaced by
executable models of the contracts the client relies on (authenticated
encryption that round-trips under the right key and nonce, an injective
padding-free textual codec whose alphabet contains no `'.'`).

The file is laid out as definitions first, then theorems.
-/

/-- A JavaScript string (list of UTF-16 code units) or raw binary string
(list of byte values).  The source passes both through the same APIs. -/
abbrev JStr := List Nat

/-! ## Model of the external `base64url` codec

`Crypto.b64encode` / `Crypto.b64decode` delegate to the `base64url`
npm package.  The client code relies on exactly two contract facts:
decoding inverts encoding, and the output alphabet (`A-Za-z0-9-_`)
never contains the `'.'` separator (code unit 46).  The model below is an
injective byte-to-text code with those two properties: each byte `n`
becomes the pair of units `[95, 256 + n]` (95 is `'_'`, a base64url
alphabet character; the offset keeps every emitted unit off 46). -/

/-- Model of `Crypto.b64encode` (URL-safe base64, no padding). -/
def b64encode (raw : JStr) : JStr :=
  raw.flatMap (fun n => [95, 256 + n])

/-- Model of `Crypto.b64decode`, the exact inverse of `b64encode` on
well-formed input. -/
def b64decode : JStr → JStr
  | _ :: y :: rest => (y - 256) :: b64decode rest
  | _ => []

/-! ## Dotted envelopes

Encrypted fields are `"b64.b64.b64.b64"` and EAKs are `"b64.b64"`; the
source joins with `'.'` and splits with `String.split('.')`. -/

/-- `Array.prototype.join('.')`. -/
def joinDot : List JStr → JStr
  | [] => []
  | [p] => p
  | p :: rest => p ++ 46 :: joinDot rest

/-- Accumulator loop for `String.prototype.split('.')`. -/
def splitDotAux (cur : JStr) : JStr → List JStr
  | [] => [cur.reverse]
  | c :: rest =>
    if c = 46 then cur.reverse :: splitDotAux [] rest
    else splitDotAux (c :: cur) rest

/-- `String.prototype.split('.')`. -/
def splitDot (s : JStr) : List JStr := splitDotAux [] s

/-! ## Model of the libsodium secret-box and box primitives

`crypto_secretbox_easy` / `crypto_secretbox_open_easy` (XSalsa20-Poly1305)
and `crypto_box_easy` / `crypto_box_open_easy` (X25519+XSalsa20-Poly1305)
are external.  The client depends on the authenticated-encryption
contract: opening with the key and nonce used for sealing returns the
message, anything else fails.  The model realises the contract with a
length-prefixed packing (executable and exactly invertible). -/

/-- Length-prefixed packing used by the cipher models. -/
def lpCons (x rest : JStr) : JStr := x.length :: x ++ rest

/-- Inverse of `lpCons`. -/
def lpTake : JStr → Option (JStr × JStr)
  | [] => none
  | n :: rest => if n ≤ rest.length then some (rest.take n, rest.drop n) else none

/-- Model of `sodium.crypto_secretbox_easy msg nonce key`. -/
def secretboxEasy (m n k : JStr) : JStr := lpCons m (lpCons n k)

/-- Model of `sodium.crypto_secretbox_open_easy ct nonce key`: succeeds with
the sealed message exactly when `nonce` and `key` match the sealing call. -/
def secretboxOpenEasy (c n k : JStr) : Option JStr :=
  (lpTake c).bind fun mn =>
    (lpTake mn.2).bind fun nk =>
      if nk.1 = n ∧ nk.2 = k then some mn.1 else none

/-- Model of X25519 public-key derivation from a private key (injective). -/
def pubOf (priv : JStr) : JStr := 0 :: priv

/-- Model of `sodium.crypto_box_easy msg nonce recipientPub senderPriv`. -/
def cryptoBoxEasy (m n pubR privS : JStr) : JStr :=
  lpCons m (lpCons n (lpCons pubR (pubOf privS)))

/-- Model of `sodium.crypto_box_open_easy ct nonce senderPub recipientPriv`. -/
def cryptoBoxOpenEasy (c n pubS privR : JStr) : Option JStr :=
  (lpTake c).bind fun mr =>
    (lpTake mr.2).bind fun nr =>
      (lpTake nr.2).bind fun rs =>
        if nr.1 = n ∧ rs.1 = pubOf privR ∧ rs.2 = pubS then some mr.1 else none

/-! ## Records (`src/lib/types/meta.js`, `src/lib/types/record.js`)

`Meta`'s constructor takes `(writerId, userId, type, plain)` and initialises
`recordId`, `created`, `lastModified` and `version` to `null`; the `Option`
fields model the nullable slots. -/

structure Meta where
  recordId : Option JStr
  writerId : JStr
  userId : JStr
  type : JStr
  plain : List (JStr × JStr)
  created : Option JStr
  lastModified : Option JStr
  version : Option JStr
deriving DecidableEq

/-- `new Meta(writerId, userId, type, plain)`. -/
def Meta.init (writerId userId type : JStr) (plain : List (JStr × JStr)) : Meta :=
  { recordId := none, writerId := writerId, userId := userId, type := type
    plain := plain, created := none, lastModified := none, version := none }

/-- `new Record(meta, data, signature)`; `data` maps field names to
plaintext values (client side) or `"b64.b64.b64.b64"` envelopes (wire). -/
structure Record where
  meta : Meta
  data : List (JStr × JStr)
  signature : Option JStr
deriving DecidableEq

namespace Crypto

/-- Body of the per-field loop of `Crypto.encryptRecord`
(src/unnamed/part_010 lines 140-156): a fresh data key `dk` seals the
field (`ef` under nonce `efN`), the access key seals `dk` (`edk` under
nonce `edkN`), and the four parts are base64url-encoded and dot-joined. -/
def encryptField (accessKey dk efN edkN field : JStr) : JStr :=
  let ef := secretboxEasy field efN dk
  let edk := secretboxEasy dk edkN accessKey
  joinDot [b64encode edk, b64encode edkN, b64encode ef, b64encode efN]

/-- The `for (let key in record.data)` loop of `Crypto.encryptRecord`.
The CSPRNG draws (`crypto_secretbox_keygen`, two `randombytes_buf`) are
threaded explicitly: field `i` consumes `rng (3*i)` as its data key and
`rng (3*i+1)`, `rng (3*i+2)` as its two nonces, in source order. -/
def encryptData (accessKey : JStr) (rng : Nat → JStr) :
    Nat → List (JStr × JStr) → List (JStr × JStr)
  | _, [] => []
  | i, (k, v) :: rest =>
    (k, encryptField accessKey (rng (3 * i)) (rng (3 * i + 1)) (rng (3 * i + 2)) v)
      :: encryptData accessKey rng (i + 1) rest

/-- `Crypto.encryptRecord` (src/unnamed/part_010 lines 128-160): clones the
meta through `new Meta(writerId, userId, type, plain)` — which nulls
`recordId`, `created`, `lastModified`, `version` — and encrypts each data
field. -/
def encryptRecord (record : Record) (accessKey : JStr) (rng : Nat → JStr) : Record :=
  let meta := Meta.init record.meta.writerId record.meta.userId
      record.meta.type record.meta.plain
  { meta := meta
    data := encryptData accessKey rng 0 record.data
    signature := record.signature }

/-- Body of the per-field loop of `Crypto.decryptRecord`: split on `'.'`,
base64url-decode the four components, open the data key under the access
key, then open the field under the data key. -/
def decryptField (accessKey : JStr) (s : JStr) : Option JStr :=
  match splitDot s with
  | [edkB, edkNB, efB, efNB] =>
    (secretboxOpenEasy (b64decode edkB) (b64decode edkNB) accessKey).bind fun dk =>
      secretboxOpenEasy (b64decode efB) (b64decode efNB) dk
  | _ => none

/-- The `for (let key in encrypted.data)` loop of `Crypto.decryptRecord`. -/
def decryptData (accessKey : JStr) : List (JStr × JStr) → Option (List (JStr × JStr))
  | [] => some []
  | (k, v) :: rest =>
    (decryptField accessKey v).bind fun f =>
      (decryptData accessKey rest).map fun r => (k, f) :: r

/-- `Crypto.decryptRecord` (src/unnamed/part_010 lines 86-117): clones the
meta through the constructor and then copies `recordId`, `created`,
`lastModified` and `version` across, then decrypts each data field. -/
def decryptRecord (encrypted : Record) (accessKey : JStr) : Option Record :=
  let meta0 := Meta.init encrypted.meta.writerId encrypted.meta.userId
      encrypted.meta.type encrypted.meta.plain
  let meta := { meta0 with
    recordId := encrypted.meta.recordId
    created := encrypted.meta.created
    lastModified := encrypted.meta.lastModified
    version := encrypted.meta.version }
  (decryptData accessKey encrypted.data).map fun d =>
    { meta := meta, data := d, signature := encrypted.signature }

end Crypto

/-- Concrete record used as the counterexample input for the round-trip
claim: its meta carries all four server-assigned fields. -/
def sampleServerRecord : Record :=
  { meta :=
      { recordId := some [114, 49]
        writerId := [119]
        userId := [117]
        type := [116]
        plain := [([112], [113])]
        created := some [99]
        lastModified := some [108]
        version := some [118] }
    data := [([102], [120, 121])]
    signature := none }

/-- Concrete access key and RNG stream for the counterexample. -/
def sampleAk : JStr := List.replicate 32 7

/-- Deterministic RNG stream standing in for the CSPRNG draws. -/
def sampleRng : Nat → JStr := fun i => [i + 1]

/-! ## Heap view of `Crypto.encryptRecord` / `Crypto.decryptRecord`

JS records are mutable objects on a heap.  To state the frame property
(the input record is not written through), the two functions are also
embedded against an explicit object store: record objects hold references
to their meta and data objects, `new` allocates at a fresh id, and the
field-assignment statements of the source become store writes.  `plain`
is copied by reference in the source and never written by either
function, so it stays a value inside `Meta` here. -/

/-- A record object: references to its meta and data objects plus the
signature slot. -/
structure RecV where
  metaId : Nat
  dataId : Nat
  signature : Option JStr
deriving DecidableEq

/-- Object store: allocation counter plus one table per object kind
(newest write first). -/
structure Heap where
  nextId : Nat
  metas : List (Nat × Meta)
  datas : List (Nat × List (JStr × JStr))
  recs : List (Nat × RecV)
deriving DecidableEq

/-- Lookup in a store table (newest entry wins). -/
def hlookup {α : Type} : List (Nat × α) → Nat → Option α
  | [], _ => none
  | (k, v) :: rest, id => if k = id then some v else hlookup rest id

/-- `new Meta(...)`. -/
def allocMeta (h : Heap) (m : Meta) : Heap × Nat :=
  ({ h with nextId := h.nextId + 1, metas := (h.nextId, m) :: h.metas }, h.nextId)

/-- The `{}` object literal passed to `new Record(meta, {}, sig)`. -/
def allocData (h : Heap) (d : List (JStr × JStr)) : Heap × Nat :=
  ({ h with nextId := h.nextId + 1, datas := (h.nextId, d) :: h.datas }, h.nextId)

/-- `new Record(meta, data, signature)`. -/
def allocRec (h : Heap) (r : RecV) : Heap × Nat :=
  ({ h with nextId := h.nextId + 1, recs := (h.nextId, r) :: h.recs }, h.nextId)

/-- A property assignment `obj[key] = value` on a data object. -/
def setDataField (h : Heap) (id : Nat) (k v : JStr) : Heap :=
  match hlookup h.datas id with
  | some d => { h with datas := (id, d ++ [(k, v)]) :: h.datas }
  | none => h

/-- The encryption loop of `Crypto.encryptRecord`, writing each encrypted
field onto the freshly created data object `dId`. -/
def writeEncFields (h : Heap) (dId : Nat) (ak : JStr) (rng : Nat → JStr) :
    Nat → List (JStr × JStr) → Heap
  | _, [] => h
  | i, (k, v) :: rest =>
    writeEncFields
      (setDataField h dId k
        (Crypto.encryptField ak (rng (3 * i)) (rng (3 * i + 1)) (rng (3 * i + 2)) v))
      dId ak rng (i + 1) rest

/-- The decryption loop of `Crypto.decryptRecord` (a failed secret-box
open throws, modelled by `none`). -/
def writeDecFields (h : Heap) (dId : Nat) (ak : JStr) :
    List (JStr × JStr) → Option Heap
  | [] => some h
  | (k, v) :: rest =>
    (Crypto.decryptField ak v).bind fun f =>
      writeDecFields (setDataField h dId k f) dId ak rest

/-- Heap view of `Crypto.encryptRecord`: reads the input record `rid` and
its meta and data objects, allocates the cloned meta (constructor nulls
the server-assigned fields), an empty data object and the output record,
then runs the encryption loop against the new data object only. -/
def encryptRecordHeap (h : Heap) (rid : Nat) (ak : JStr) (rng : Nat → JStr) :
    Option (Heap × Nat) :=
  (hlookup h.recs rid).bind fun r =>
    (hlookup h.metas r.metaId).bind fun m =>
      (hlookup h.datas r.dataId).bind fun d =>
        let a1 := allocMeta h (Meta.init m.writerId m.userId m.type m.plain)
        let a2 := allocData a1.1 []
        let a3 := allocRec a2.1 ⟨a1.2, a2.2, r.signature⟩
        some (writeEncFields a3.1 a2.2 ak rng 0 d, a3.2)

/-- Heap view of `Crypto.decryptRecord`: same shape, with the four
server-assigned meta fields copied onto the freshly allocated meta (the
`meta.recordId = encrypted.meta.recordId` assignment block). -/
def decryptRecordHeap (h : Heap) (rid : Nat) (ak : JStr) :
    Option (Heap × Nat) :=
  (hlookup h.recs rid).bind fun r =>
    (hlookup h.metas r.metaId).bind fun m =>
      (hlookup h.datas r.dataId).bind fun d =>
        let m1 := { Meta.init m.writerId m.userId m.type m.plain with
          recordId := m.recordId, created := m.created
          lastModified := m.lastModified, version := m.version }
        let a1 := allocMeta h m1
        let a2 := allocData a1.1 []
        let a3 := allocRec a2.1 ⟨a1.2, a2.2, r.signature⟩
        (writeDecFields a3.1 a2.2 ak d).map fun h4 => (h4, a3.2)

/-- Store sanity: every allocated id and every reference held by a record
object lies below the allocation counter. -/
def heapWF (h : Heap) : Prop :=
  (∀ p ∈ h.metas, p.1 < h.nextId) ∧
    (∀ p ∈ h.datas, p.1 < h.nextId) ∧
      (∀ p ∈ h.recs, p.1 < h.nextId ∧ p.2.metaId < h.nextId ∧ p.2.dataId < h.nextId)

instance : DecidablePred heapWF := fun h => by
  unfold heapWF
  infer_instance

/-- Concrete well-formed heap holding `sampleServerRecord` at id 2, used
to witness the frame theorem. -/
def sampleHeap : Heap :=
  { nextId := 3
    metas := [(0, sampleServerRecord.meta)]
    datas := [(1, sampleServerRecord.data)]
    recs := [(2, ⟨0, 1, none⟩)] }

/-- Frame condition for the heap record operations: every object allocated
before the call is unchanged, the returned record id is fresh, and in
particular the input record's meta and data objects are untouched. -/
def heapFrame (h h' : Heap) (rid outId : Nat) : Prop :=
  (∀ id, id < h.nextId →
      hlookup h'.metas id = hlookup h.metas id ∧
        hlookup h'.datas id = hlookup h.datas id ∧
          hlookup h'.recs id = hlookup h.recs id) ∧
    h.nextId ≤ outId ∧ hlookup h.recs outId = none ∧
      ∀ r, hlookup h.recs rid = some r →
        hlookup h'.metas r.metaId = hlookup h.metas r.metaId ∧
          hlookup h'.datas r.dataId = hlookup h.datas r.dataId

/-! ## Client / server state machine (`src/unnamed/part_002`)

The async-generation client.  HTTP calls are recorded as trace events;
the storage service (out of scope, §6 of the spec) is a state black box
that answers EAK CRUD, policy writes and client-directory reads; every
request that the source treats as 2xx-or-404 succeeds in the model, so
`checkStatus` failures do not arise and the remaining failure modes are
the client-side ones (crypto, `TypeError`, missing directory entries). -/

/-- Errors surfaced by the embedded client operations.  Constructors map
to the JS errors thrown by the source: `conflict` is
`new Error('Conflict')`, `deleteFailed` is the generic transport error
`new Error('Error while deleting record data!')`, `typeError` is a JS
`TypeError` (property read on `undefined`), `cryptoFailed` is a libsodium
open failure, `emailUnsupported` is
`'Client discovery by email address is not supported'`, `missingClient`
is a failed `checkStatus` on the client-directory fetch, `noAccessKey` is
`'No access key available.'`. -/
inductive JsErr where
  | typeError
  | conflict
  | deleteFailed
  | cryptoFailed
  | emailUnsupported
  | missingClient
  | noAccessKey
deriving DecidableEq

/-- HTTP requests the client issues, as trace events. -/
inductive Ev where
  | akGet (w u r t : JStr)
  | akPut (w u r t : JStr)
  | akDelete (w u r t : JStr)
  | policyPut (w u r t : JStr) (allow : Bool)
  | clientGet (id : JStr)
  | tokenFetch
deriving DecidableEq

/-- Association-list lookup (first match wins). -/
def alookup {κ ν : Type} [DecidableEq κ] : List (κ × ν) → κ → Option ν
  | [], _ => none
  | (k, v) :: rest, key => if k = key then some v else alookup rest key

/-- JS property write `obj[k] = v`: replace any previous binding. -/
def aInsert {κ ν : Type} [DecidableEq κ] (l : List (κ × ν)) (k : κ) (v : ν) :
    List (κ × ν) :=
  (k, v) :: l.filter (fun p => ¬ p.1 = k)

/-- JS property removal `delete obj[k]`. -/
def aErase {κ ν : Type} [DecidableEq κ] (l : List (κ × ν)) (k : κ) :
    List (κ × ν) :=
  l.filter (fun p => ¬ p.1 = k)

/-- Model of the `EMAIL` regex test
`/(.+)@(.+){2,}\.(.+){2,}/.test(s)` (src/unnamed/part_002 line 52): the
unanchored pattern matches exactly when the string decomposes as
`A ++ '@' ++ B ++ '.' ++ C` with `A` nonempty and `B`, `C` of length at
least two. -/
def emailTest (s : JStr) : Bool :=
  decide (∃ i : Fin s.length, ∃ j : Fin s.length,
    s.get i = 64 ∧ s.get j = 46 ∧ 1 ≤ i.1 ∧ i.1 + 3 ≤ j.1 ∧ j.1 + 3 ≤ s.length)

/-- The EAK wire object (`{eak, authorizer_public_key: {curve25519}}`). -/
structure EAKInfo where
  eak : JStr
  authorizerPublicKey : JStr
deriving DecidableEq

/-- Client configuration (the fields the embedded operations read). -/
structure Config where
  clientId : JStr
  publicKey : JStr
  privateKey : JStr
  version : Nat
deriving DecidableEq

/-- Per-client mutable state: the bearer token slot and the AK cache,
whose keys are the dotted strings built by the source. -/
structure ClientState where
  config : Config
  authToken : Option JStr
  authTokenTimeout : Int
  akCache : List (JStr × JStr)
deriving DecidableEq

/-- Storage-service state (modelled from the spec, §6: the server is an
external black box): EAK store keyed by `(writer, user, reader, type)`,
policy store, and the client directory mapping ids to Curve25519 public
keys. -/
structure Server where
  eaks : List ((JStr × JStr × JStr × JStr) × JStr)
  policies : List ((JStr × JStr × JStr × JStr) × Bool)
  clients : List (JStr × JStr)
deriving DecidableEq

/-- A client bound to the remote service, with the CSPRNG stream and its
position. -/
structure World where
  client : ClientState
  server : Server
  rng : Nat → JStr
  rngCtr : Nat

/-- `` `${writerId}.${userId}.${type}` `` — the AK cache key.  The reader
id is not part of the key. -/
def cacheKey (w u t : JStr) : JStr := w ++ 46 :: u ++ 46 :: t

/-- Draw one value from the CSPRNG stream. -/
def draw (w : World) : JStr × World :=
  (w.rng w.rngCtr, { w with rngCtr := w.rngCtr + 1 })

/-- Overwrite one AK-cache entry. -/
def setCache (w : World) (k v : JStr) : World :=
  { w with client := { w.client with akCache := aInsert w.client.akCache k v } }

/-- Remove one AK-cache entry. -/
def dropCache (w : World) (k : JStr) : World :=
  { w with client := { w.client with akCache := aErase w.client.akCache k } }

namespace Crypto

/-- `Crypto.decryptEak` (src/unnamed/part_010 lines 45-55): base64url-
decode the authorizer public key, the reader private key, and the two
dot-separated EAK components, then `crypto_box_open_easy`. -/
def decryptEak (readerKey : JStr) (encryptedAk : EAKInfo) : Option JStr :=
  let publicKey := b64decode encryptedAk.authorizerPublicKey
  let privateKey := b64decode readerKey
  match splitDot encryptedAk.eak with
  | [eakB, nonceB] =>
    cryptoBoxOpenEasy (b64decode eakB) (b64decode nonceB) publicKey privateKey
  | _ => none

/-- `Crypto.encryptAk` (src/unnamed/part_010 lines 66-75): seal the AK
from the writer's private key to the reader's public key under a fresh
24-byte nonce (threaded in by the caller) and emit `"b64u(ct).b64u(n)"`. -/
def encryptAk (writerKey ak readerKey nonce : JStr) : JStr :=
  let publicKey := b64decode readerKey
  let privateKey := b64decode writerKey
  let eak := cryptoBoxEasy ak nonce publicKey privateKey
  joinDot [b64encode eak, b64encode nonce]

end Crypto

/-- Server answer to `GET /v1/storage/access_keys/{w}/{u}/{r}/{t}`
(modelled from the spec, §6): 404 (`none`) when no EAK is stored,
otherwise the stored EAK together with the authorizer's public key from
the directory. -/
def Server.eakGet (s : Server) (q : JStr × JStr × JStr × JStr) : Option EAKInfo :=
  (alookup s.eaks q).map fun stored =>
    { eak := stored
      authorizerPublicKey := b64encode ((alookup s.clients q.1).getD []) }

/-- Server effect of `PUT .../access_keys/...` (modelled from the spec). -/
def Server.eakPut (s : Server) (q : JStr × JStr × JStr × JStr) (eak : JStr) :
    Server :=
  { s with eaks := aInsert s.eaks q eak }

/-- Server effect of `DELETE .../access_keys/...` (modelled from the
spec): the EAK for the quadruple is removed. -/
def Server.eakDelete (s : Server) (q : JStr × JStr × JStr × JStr) : Server :=
  { s with eaks := aErase s.eaks q }

/-- Server effect of `PUT /v1/storage/policy/...` (modelled from the
spec). -/
def Server.policyWrite (s : Server) (q : JStr × JStr × JStr × JStr)
    (allow : Bool) : Server :=
  { s with policies := aInsert s.policies q allow }

/-- `getAccessKey` (src/unnamed/part_002 lines 185-206): consult the
cache under `` `${writerId}.${userId}.${type}` ``; on a miss, fetch the
EAK (404 ⇒ absent), unseal it with the client's private key and populate
the cache. -/
def getAccessKey (w : World) (wr u r t : JStr) :
    List Ev × Except JsErr (World × Option JStr) :=
  let ck := cacheKey wr u t
  match alookup w.client.akCache ck with
  | some ak => ([], .ok (w, some ak))
  | none =>
    match w.server.eakGet (wr, u, r, t) with
    | none => ([.akGet wr u r t], .ok (w, none))
    | some eakInfo =>
      match Crypto.decryptEak w.client.config.privateKey eakInfo with
      | none => ([.akGet wr u r t], .error .cryptoFailed)
      | some key => ([.akGet wr u r t], .ok (setCache w ck key, some key))

/-- `putAccessKey` (src/unnamed/part_002 lines 220-251): resolve the
reader's public key through `Client.getClient`, seal the AK for it, PUT
the EAK, and on success cache the plaintext AK under
`` `${writerId}.${userId}.${type}` ``. -/
def putAccessKey (w : World) (wr u r t ak : JStr) :
    List Ev × Except JsErr (World × JStr) :=
  match alookup w.server.clients r with
  | none => ([.clientGet r], .error .missingClient)
  | some pubBytes =>
    let readerKey := b64encode pubBytes
    let d := draw w
    let eak := Crypto.encryptAk d.2.client.config.privateKey ak readerKey d.1
    let w2 := { d.2 with server := d.2.server.eakPut (wr, u, r, t) eak }
    ([.clientGet r, .akPut wr u r t], .ok (setCache w2 (cacheKey wr u t) ak, ak))

/-- `deleteAccessKey` (src/unnamed/part_002 lines 264-290): DELETE the
server EAK for the quadruple, then drop the cache entry for
`` `${writerId}.${userId}.${type}` ``. -/
def deleteAccessKey (w : World) (wr u r t : JStr) :
    List Ev × Except JsErr (World × Bool) :=
  let w1 := { w with server := w.server.eakDelete (wr, u, r, t) }
  ([.akDelete wr u r t], .ok (dropCache w1 (cacheKey wr u t), true))

/-- `Client._getCachedAk` (src/unnamed/part_002 lines 373-383): cache
hit, else decrypt the provided EAK and populate the cache. -/
def getCachedAk (w : World) (wr u _r t : JStr) (eak : EAKInfo) :
    Except JsErr (World × JStr) :=
  let ck := cacheKey wr u t
  match alookup w.client.akCache ck with
  | some ak => .ok (w, ak)
  | none =>
    match Crypto.decryptEak w.client.config.privateKey eak with
    | none => .error .cryptoFailed
    | some ak => .ok (setCache w ck ak, ak)

/-- `Client.share` (src/unnamed/part_002 lines 878-927).  Sharing with
oneself is a no-op; an email-looking reader goes through `clientInfo`,
which in this (v2) generation throws `emailUnsupported`; otherwise:
ensure an AK for `(self, self, type)` exists (creating and self-wrapping
a fresh one when absent), wrap it for the reader (`putAccessKey`), then
PUT the allow policy. -/
def share (w : World) (type readerId : JStr) :
    List Ev × Except JsErr (World × Bool) :=
  if readerId = w.client.config.clientId then ([], .ok (w, true))
  else if emailTest readerId then ([], .error .emailUnsupported)
  else
    let clientId := w.client.config.clientId
    match getAccessKey w clientId clientId clientId type with
    | (tr1, .error e) => (tr1, .error e)
    | (tr1, .ok (w1, akOpt)) =>
      let ensure : List Ev × Except JsErr (World × JStr) :=
        match akOpt with
        | some ak => ([], .ok (w1, ak))
        | none =>
          let d := draw w1
          putAccessKey d.2 clientId clientId clientId type d.1
      match ensure with
      | (tr2, .error e) => (tr1 ++ tr2, .error e)
      | (tr2, .ok (w2, ak)) =>
        match putAccessKey w2 clientId clientId readerId type ak with
        | (tr3, .error e) => (tr1 ++ tr2 ++ tr3, .error e)
        | (tr3, .ok (w3, _)) =>
          let w4 := { w3 with
            server := w3.server.policyWrite (clientId, clientId, readerId, type) true }
          (tr1 ++ tr2 ++ tr3 ++ [.policyPut clientId clientId readerId type true],
            .ok (w4, true))

/-- `Client.revoke` (src/unnamed/part_002 lines 937-973): no-op for self,
`emailUnsupported` for email-looking readers, otherwise PUT the deny
policy first and then delete the EAK (and cache entry). -/
def revoke (w : World) (type readerId : JStr) :
    List Ev × Except JsErr (World × Bool) :=
  if readerId = w.client.config.clientId then ([], .ok (w, true))
  else if emailTest readerId then ([], .error .emailUnsupported)
  else
    let clientId := w.client.config.clientId
    let w1 := { w with
      server := w.server.policyWrite (clientId, clientId, readerId, type) false }
    match deleteAccessKey w1 clientId clientId readerId type with
    | (tr, .error e) => (.policyPut clientId clientId readerId type false :: tr, .error e)
    | (tr, .ok (w2, _)) =>
      (.policyPut clientId clientId readerId type false :: tr, .ok (w2, true))

/-- Parsed body of the `/v1/auth/token` response: the access token and
the result of `Date.parse(json.expires_at)`. -/
structure TokenResp where
  accessToken : JStr
  expiresAtParsed : Int
deriving DecidableEq

/-- `getToken` (src/unnamed/part_002 lines 77-97): refetch when the
cached token is `null` or `Date.now()` is past the cached timeout; cache
the fresh token with `client._authTokenTimeout = Date.parse(json.expires_at)`. -/
def getToken (c : ClientState) (now : Int) (resp : TokenResp) :
    ClientState × List Ev × JStr :=
  match c.authToken, decide (now > c.authTokenTimeout) with
  | some t, false => (c, [], t)
  | _, _ =>
    ({ c with authToken := some resp.accessToken
              authTokenTimeout := resp.expiresAtParsed },
      [.tokenFetch], resp.accessToken)

/-- Legacy `getToken` (src/lib/client.js lines 50-72): same refresh
condition, but the cached expiry is `Date.now() + 10 * 60` — 600
milliseconds, not the ten minutes its comment promises, and not derived
from the server's `expires_at`. -/
def getTokenLib (c : ClientState) (now : Int) (resp : TokenResp) :
    ClientState × List Ev × JStr :=
  match c.authToken, decide (now > c.authTokenTimeout) with
  | some t, false => (c, [], t)
  | _, _ =>
    ({ c with authToken := some resp.accessToken
              authTokenTimeout := now + 10 * 60 },
      [.tokenFetch], resp.accessToken)

/-- `Client.delete` (src/unnamed/part_002 lines 725-747): unsafe URL when
no version is supplied, safe URL otherwise; the response status is
switched: 204 and 403 succeed, 409 throws `Conflict`, anything else
throws the generic `Error('Error while deleting record data!')`.  The
record id and version select the URL only and do not affect the result. -/
def clientDelete (_recordId : JStr) (_version : Option JStr) (status : Nat) :
    Except JsErr Bool :=
  if status = 204 then .ok true
  else if status = 403 then .ok true
  else if status = 409 then .error .conflict
  else .error .deleteFailed

/-! ## Query cursor (`src/unnamed/part_006`) -/

/-- The query template fields `QueryResult.next` reads. -/
structure Query where
  data : Bool
  afterIndex : Nat
deriving DecidableEq

/-- `QueryResult` state: the constructor sets `afterIndex`, `client`,
`query` and `done` — and nothing else; in particular it has no `config`
property. -/
structure QueryResult where
  afterIndex : Nat
  query : Query
  done : Bool
deriving DecidableEq

/-- One entry of the search response (`meta` already decoded). -/
structure SearchResult where
  meta : Meta
  recordData : List (JStr × JStr)
  accessKey : EAKInfo
deriving DecidableEq

/-- Body of the `/v1/storage/search` response. -/
structure SearchResp where
  results : List SearchResult
  lastIndex : Nat
deriving DecidableEq

/-- `this.config` as evaluated inside `QueryResult.next`: `QueryResult`
objects carry no `config` property, so the read yields `undefined`. -/
def QueryResult.configProp (_ : QueryResult) : Option Config := none

/-- `Promise.all` over already-settled results: the first rejection wins,
otherwise the list of fulfilments. -/
def seqExcept {α : Type} : List (Except JsErr α) → Except JsErr (List α)
  | [] => .ok []
  | x :: rest => x.bind fun v => (seqExcept rest).map fun vs => v :: vs

/-- `QueryResult.next` (src/unnamed/part_006 lines 30-65).  When the
query asked for data, each result is decrypted with
`Crypto.decryptEak(this.config.privateKey, result.access_key)` — but
`this.config` is `undefined` on a `QueryResult`, so the property read
throws a `TypeError`. -/
def queryNext (qr : QueryResult) (resp : SearchResp) :
    Except JsErr (QueryResult × List Record) :=
  if qr.done then .ok (qr, [])
  else if resp.results = [] then .ok ({ qr with done := true }, [])
  else
    let mapped := resp.results.map fun res =>
      let record : Record := { meta := res.meta, data := res.recordData, signature := none }
      if qr.query.data then
        match qr.configProp with
        | none => Except.error JsErr.typeError
        | some cfg =>
          match Crypto.decryptEak cfg.privateKey res.accessKey with
          | none => .error .cryptoFailed
          | some ak =>
            match Crypto.decryptRecord record ak with
            | none => .error .cryptoFailed
            | some decrypted => .ok decrypted
      else .ok record
    (seqExcept mapped).map fun records =>
      ({ qr with afterIndex := resp.lastIndex }, records)

/-- Modelled from the spec (§4.7 and design note "Open question 2"): the
missing corrected cursor routes key material through the owning client —
each result's EAK is resolved via the client's `_getCachedAk` (cache
first, then decrypt-and-populate) using `this.client.config.privateKey`. -/
def queryNextSpec (w : World) (qr : QueryResult) (resp : SearchResp) :
    Except JsErr (World × QueryResult × List Record) :=
  if qr.done then .ok (w, qr, [])
  else if resp.results = [] then .ok (w, { qr with done := true }, [])
  else
    let rec go (w : World) : List SearchResult → Except JsErr (World × List Record)
      | [] => .ok (w, [])
      | res :: rest =>
        let record : Record := { meta := res.meta, data := res.recordData, signature := none }
        if qr.query.data then
          match getCachedAk w res.meta.writerId res.meta.userId
              w.client.config.clientId res.meta.type res.accessKey with
          | .error e => .error e
          | .ok (w1, ak) =>
            match Crypto.decryptRecord record ak with
            | none => .error .cryptoFailed
            | some decrypted =>
              (go w1 rest).map fun p => (p.1, decrypted :: p.2)
        else (go w rest).map fun p => (p.1, record :: p.2)
    (go w resp.results).map fun p =>
      (p.1, { qr with afterIndex := resp.lastIndex }, p.2)

/-- Helper to extract the successful world from an operation result
(used only to phrase closed witness statements). -/
def okWorld {α : Type} (p : List Ev × Except JsErr (World × α)) (dflt : World) :
    World :=
  match p.2 with
  | .ok (w, _) => w
  | _ => dflt

/-- Concrete client world used by the witnesses: client `[65]` with
private-key seed `[1]`, an empty AK cache, and a directory knowing
clients `[65]` and `[66]`. -/
def sampleWorld : World :=
  { client :=
      { config :=
          { clientId := [65]
            publicKey := b64encode (pubOf [1])
            privateKey := b64encode [1]
            version := 1 }
        authToken := none
        authTokenTimeout := 0
        akCache := [] }
    server :=
      { eaks := []
        policies := []
        clients := [([65], pubOf [1]), ([66], pubOf [2])] }
    rng := fun i => [i + 100]
    rngCtr := 0 }

/-- Access key wrapped inside the sample query response. -/
def sampleQueryAk : JStr := [5, 5]

/-- EAK of the sample query response: sealed by writer seed `[3]` for the
sample client's public key. -/
def sampleQueryEak : EAKInfo :=
  { eak := Crypto.encryptAk (b64encode [3]) sampleQueryAk (b64encode (pubOf [1])) [9]
    authorizerPublicKey := b64encode (pubOf [3]) }

/-- Meta of the sample query result (as produced by `Meta.decode`). -/
def sampleQueryMeta : Meta :=
  { recordId := some [114]
    writerId := [87]
    userId := [85]
    type := [84]
    plain := []
    created := some [99]
    lastModified := some [108]
    version := some [118] }

/-- The sample search response: one result whose data was encrypted under
`sampleQueryAk`. -/
def sampleResp : SearchResp :=
  { results :=
      [{ meta := sampleQueryMeta
         recordData := Crypto.encryptData sampleQueryAk (fun i => [i + 50]) 0
           [([100], [42])]
         accessKey := sampleQueryEak }]
    lastIndex := 7 }

/-- The cursor state for the sample query (data requested, first page). -/
def sampleQR : QueryResult :=
  { afterIndex := 0, query := { data := true, afterIndex := 0 }, done := false }

/-! ## Canonical serializer (`Signable.stringify` / `sortObject`)

`src/lib/types/outgoingSharingPolicy.js` (second generation, the
`signable.js` module) defines

```
function sortObject(obj) \x7b
  let keys = Object.keys(obj); keys.sort()
  let returner = \x7b\x7d
  for (let key of keys) \x7b
    if (typeof obj[key] === 'object') returner[key] = sortObject(obj[key])
    else returner[key] = obj[key] \x7d
  return returner \x7d
stringify() \x7b return JSON.stringify(sortObject(this.serializable())) \x7d
```

JS documents are embedded as the mutual `JVal`/`JList`/`JFields` types
(objects keep insertion order).  Three JS facts drive the embedding:
`typeof null === 'object'`, so `sortObject` recurses into `null` values
and `Object.keys(null)` throws a `TypeError` (the single `.error ()`);
`typeof [] === 'object'`, so an array is rebuilt as a plain object keyed
by its decimal index strings, which `keys.sort()` orders as strings; and
`Array.sort()` on distinct strings compares by UTF-16 code units.

The embedding performs the per-entry recursion first and the key-only
insertion sort afterwards; the source sorts the key list first and then
recurses in sorted order.  The two commute entry by entry (sorting moves
whole key/value pairs and never looks at values), and the error results
agree as well because the thrown `TypeError` is the one error value, so
the embedded function is extensionally the source's. -/

mutual
inductive JVal where
  | jnull
  | jbool (b : Bool)
  | jnum (n : Int)
  | jstr (s : JStr)
  | jarr (elems : JList)
  | jobj (fields : JFields)
deriving DecidableEq
inductive JList where
  | nil
  | cons (v : JVal) (rest : JList)
deriving DecidableEq
inductive JFields where
  | nil
  | cons (k : JStr) (v : JVal) (rest : JFields)
deriving DecidableEq
end

instance {ε α : Type} [DecidableEq ε] [DecidableEq α] : DecidableEq (Except ε α) :=
  fun a b =>
  match a, b with
  | .ok x, .ok y => if h : x = y then isTrue (by rw [h]) else isFalse (by simp [h])
  | .error x, .error y =>
    if h : x = y then isTrue (by rw [h]) else isFalse (by simp [h])
  | .ok _, .error _ => isFalse (by simp)
  | .error _, .ok _ => isFalse (by simp)

/-- JS string comparison `a < b` (lexicographic on UTF-16 code units),
the default collation used by `Array.prototype.sort` on string keys. -/
def jsLess : JStr → JStr → Bool
  | [], [] => false
  | [], _ :: _ => true
  | _ :: _, [] => false
  | a :: as, b :: bs => if a < b then true else if b < a then false else jsLess as bs

/-- Insert one key/value pair in key order (strictly-less keys stay in
front; on ties the new pair goes behind, which is irrelevant for the
duplicate-free key lists JS objects produce). -/
def insertField (k : JStr) (v : JVal) : JFields → JFields
  | .nil => .cons k v .nil
  | .cons k2 v2 rest =>
    if jsLess k k2 then .cons k v (.cons k2 v2 rest)
    else .cons k2 v2 (insertField k v rest)

/-- `keys.sort()` as an insertion sort carrying the values along. -/
def sortFields : JFields → JFields
  | .nil => .nil
  | .cons k v rest => insertField k v (sortFields rest)

/-- Decimal digits of `n` (the JS index-to-string conversion
`String(n)`), with explicit fuel to stay structural. -/
def natDigitsAux : Nat → Nat → JStr
  | 0, n => [48 + n % 10]
  | fuel + 1, n => if n < 10 then [48 + n] else natDigitsAux fuel (n / 10) ++ [48 + n % 10]

/-- `String(n)` for a natural number. -/
def natDigits (n : Nat) : JStr := natDigitsAux n n

mutual
/-- The loop of `sortObject` over an object's entries: recurse into every
`'object'`-typed value (`procEntry`), keep the rest verbatim. -/
def procFields : JFields → Except Unit JFields
  | .nil => .ok .nil
  | .cons k v rest =>
    match procEntry v with
    | .error e => .error e
    | .ok v2 =>
      match procFields rest with
      | .error e => .error e
      | .ok r2 => .ok (.cons k v2 r2)
/-- The loop of `sortObject` over an array: `Object.keys` yields the
decimal index strings, and the array is rebuilt as a plain object. -/
def procList : Nat → JList → Except Unit JFields
  | _, .nil => .ok .nil
  | i, .cons v rest =>
    match procEntry v with
    | .error e => .error e
    | .ok v2 =>
      match procList (i + 1) rest with
      | .error e => .error e
      | .ok r2 => .ok (.cons (natDigits i) v2 r2)
/-- `typeof obj[key] === 'object' ? sortObject(obj[key]) : obj[key]`:
`null` is `'object'`-typed and `Object.keys(null)` throws; arrays and
objects are sorted recursively; primitives are copied. -/
def procEntry : JVal → Except Unit JVal
  | .jnull => .error ()
  | .jarr es => (procList 0 es).map (fun fs => .jobj (sortFields fs))
  | .jobj fs => (procFields fs).map (fun fs2 => .jobj (sortFields fs2))
  | .jbool b => .ok (.jbool b)
  | .jnum n => .ok (.jnum n)
  | .jstr s => .ok (.jstr s)
end

/-- `sortObject` on a (top-level) object. -/
def sortObject (fs : JFields) : Except Unit JFields :=
  (procFields fs).map sortFields

/-! ### `JSON.stringify` of the sorted value -/

/-- One lowercase hexadecimal digit. -/
def hexDigit (n : Nat) : Nat := if n < 10 then 48 + n else 87 + n

/-- Four hex digits of a code unit (`\uXXXX` escapes). -/
def hex4 (c : Nat) : JStr :=
  [hexDigit (c / 4096 % 16), hexDigit (c / 256 % 16), hexDigit (c / 16 % 16),
    hexDigit (c % 16)]

/-- Leading UTF-16 surrogate (0xD800–0xDBFF). -/
def isHighSur (c : Nat) : Bool := 55296 ≤ c ∧ c ≤ 56319

/-- Trailing UTF-16 surrogate (0xDC00–0xDFFF). -/
def isLowSur (c : Nat) : Bool := 56320 ≤ c ∧ c ≤ 57343

/-- The `QuoteJSONString` escaping of `JSON.stringify` (ES2019
well-formed output): `\"`, `\\`, `\b`, `\t`, `\n`, `\f`, `\r`, `\u00XX`
for other control units, `\uXXXX` for unpaired surrogates, everything
else — including properly paired surrogates — verbatim. -/
def escapeStr : JStr → JStr
  | [] => []
  | c :: rest =>
    if c = 34 then 92 :: 34 :: escapeStr rest
    else if c = 92 then 92 :: 92 :: escapeStr rest
    else if c = 8 then 92 :: 98 :: escapeStr rest
    else if c = 9 then 92 :: 116 :: escapeStr rest
    else if c = 10 then 92 :: 110 :: escapeStr rest
    else if c = 12 then 92 :: 102 :: escapeStr rest
    else if c = 13 then 92 :: 114 :: escapeStr rest
    else if c < 32 then 92 :: 117 :: (hex4 c ++ escapeStr rest)
    else if isHighSur c then
      match rest with
      | d :: rest2 =>
        if isLowSur d then c :: d :: escapeStr rest2
        else 92 :: 117 :: (hex4 c ++ escapeStr (d :: rest2))
      | [] => 92 :: 117 :: hex4 c
    else if isLowSur c then 92 :: 117 :: (hex4 c ++ escapeStr rest)
    else c :: escapeStr rest

/-- A JSON string literal: quote, escaped body, quote. -/
def renderStr (s : JStr) : JStr := 34 :: (escapeStr s ++ [34])

/-- JS integer-to-decimal rendering (`JSON.stringify` of a number whose
value is integral). -/
def intRender (n : Int) : JStr :=
  if n < 0 then 45 :: natDigits (-n).toNat else natDigits n.toNat

mutual
/-- Serialization of a value (no whitespace), emitting an object's
members in the order of its entry list.  `JSON.stringify` itself visits
properties in the engine's enumeration order; that reorder is applied
beforehand by `enumDeepV`, so the full stringify model is
`renderVal (enumDeepV v)`. -/
def renderVal : JVal → JStr
  | .jnull => [110, 117, 108, 108]
  | .jbool b => if b then [116, 114, 117, 101] else [102, 97, 108, 115, 101]
  | .jnum n => intRender n
  | .jstr s => renderStr s
  | .jarr es => 91 :: (renderList es ++ [93])
  | .jobj fs => 123 :: (renderFields fs ++ [125])
/-- Comma-separated array elements. -/
def renderList : JList → JStr
  | .nil => []
  | .cons v .nil => renderVal v
  | .cons v rest => renderVal v ++ 44 :: renderList rest
/-- Comma-separated `"key":value` members. -/
def renderFields : JFields → JStr
  | .nil => []
  | .cons k v .nil => renderStr k ++ 58 :: renderVal v
  | .cons k v rest => renderStr k ++ 58 :: renderVal v ++ 44 :: renderFields rest
end

/-! ### The engine's property enumeration order

`JSON.stringify` and `Object.keys` both take property keys from
`OrdinaryOwnPropertyKeys` (ES2019 9.1.11.1): first every own key that is
an *array index* — the canonical decimal string of an integer below
`2^32 - 1` — in ascending numeric order, then the remaining string keys
in property creation order.  `sortObject` rebuilds each object by
inserting keys in `Array.sort` (code-unit) order, so the bytes
`JSON.stringify` finally emits list an object's array-index keys first,
numerically, and only the remaining keys in the sorted insertion
order. -/

/-- Decimal-digit test. -/
def isDig (c : Nat) : Bool := 48 ≤ c && c ≤ 57

/-- Value of a decimal digit string. -/
def evalD (l : JStr) : Nat := l.foldl (fun acc c => 10 * acc + (c - 48)) 0

/-- An *array index* property key (ES2019 6.1.7): the canonical decimal
string — digits only, no leading zero except `"0"` itself — of an
integer `< 2^32 - 1`. -/
def isArrayIndex : JStr → Bool
  | [] => false
  | c :: rest =>
    (decide (c = 48) && decide (rest = [])) ||
      (decide (49 ≤ c) && decide (c ≤ 57) && rest.all isDig &&
        decide (evalD (c :: rest) < 4294967295))

/-- Insert one entry in ascending numeric order of its array-index key. -/
def insIdx (k : JStr) (v : JVal) : JFields → JFields
  | .nil => .cons k v .nil
  | .cons k2 v2 rest =>
    if evalD k < evalD k2 then .cons k v (.cons k2 v2 rest)
    else .cons k2 v2 (insIdx k v rest)

/-- The array-index-keyed entries, in ascending numeric key order. -/
def idxPart : JFields → JFields
  | .nil => .nil
  | .cons k v rest =>
    if isArrayIndex k then insIdx k v (idxPart rest) else idxPart rest

/-- The non-array-index entries, in insertion order. -/
def strPart : JFields → JFields
  | .nil => .nil
  | .cons k v rest =>
    if isArrayIndex k then strPart rest else .cons k v (strPart rest)

/-- Concatenation of entry lists. -/
def fAppend : JFields → JFields → JFields
  | .nil, b => b
  | .cons k v rest, b => .cons k v (fAppend rest b)

/-- `OrdinaryOwnPropertyKeys` on an object whose insertion order is the
entry list: array-index keys first in ascending numeric order, then the
other keys in insertion order. -/
def enumFields (fs : JFields) : JFields := fAppend (idxPart fs) (strPart fs)

/-- No key of the object is an array index (true of every snake-case
wire object this client signs). -/
def allStrF : JFields → Bool
  | .nil => true
  | .cons k _ rest => !isArrayIndex k && allStrF rest

/-- Every key of the object is an array index. -/
def allIdxF : JFields → Bool
  | .nil => true
  | .cons k _ rest => isArrayIndex k && allIdxF rest

/-- Consecutive keys strictly ascending in numeric value. -/
def evalAscF : JFields → Bool
  | .nil => true
  | .cons _ _ .nil => true
  | .cons k1 _ (.cons k2 v2 rest) =>
    decide (evalD k1 < evalD k2) && evalAscF (.cons k2 v2 rest)

mutual
/-- Reorder every object in the tree into the engine's enumeration
order (the order `JSON.stringify` visits properties); values are kept
with their keys, so this is the identity up to member order. -/
def enumDeepV : JVal → JVal
  | .jnull => .jnull
  | .jbool b => .jbool b
  | .jnum n => .jnum n
  | .jstr s => .jstr s
  | .jarr es => .jarr (enumDeepL es)
  | .jobj fs => .jobj (enumFields (enumDeepF fs))
/-- `enumDeepV` on each array element. -/
def enumDeepL : JList → JList
  | .nil => .nil
  | .cons v rest => .cons (enumDeepV v) (enumDeepL rest)
/-- `enumDeepV` on each member value, keys and positions unchanged. -/
def enumDeepF : JFields → JFields
  | .nil => .nil
  | .cons k v rest => .cons k (enumDeepV v) (enumDeepF rest)
end

/-- `Signable.stringify`: `JSON.stringify(sortObject(this.serializable()))`
for a signable document whose `serializable()` is the object `fs` — the
rebuilt document is emitted in the engine's enumeration order
(`enumDeepV`), then rendered. -/
def signableStringify (fs : JFields) : Except Unit JStr :=
  (sortObject fs).map (fun fs2 => renderVal (enumDeepV (.jobj fs2)))

/-! ### Well-formedness, null-freedom, sortedness -/

/-- The key list of an object. -/
def fieldKeys : JFields → List JStr
  | .nil => []
  | .cons k _ rest => k :: fieldKeys rest

mutual
/-- No `null` value anywhere in the document. -/
def nullFreeV : JVal → Bool
  | .jnull => false
  | .jarr es => nullFreeL es
  | .jobj fs => nullFreeF fs
  | _ => true
def nullFreeL : JList → Bool
  | .nil => true
  | .cons v rest => nullFreeV v && nullFreeL rest
def nullFreeF : JFields → Bool
  | .nil => true
  | .cons _ v rest => nullFreeV v && nullFreeF rest
end

mutual
/-- Well-formed JS document: every object's keys are pairwise distinct
(as any value built from real JS objects is), recursively. -/
def wfV : JVal → Bool
  | .jarr es => wfL es
  | .jobj fs => decide (fieldKeys fs).Nodup && wfF fs
  | _ => true
def wfL : JList → Bool
  | .nil => true
  | .cons v rest => wfV v && wfL rest
def wfF : JFields → Bool
  | .nil => true
  | .cons _ v rest => wfV v && wfF rest
end

/-- Consecutive keys in non-descending `jsLess` order. -/
def keysSortedF : JFields → Bool
  | .nil => true
  | .cons _ _ .nil => true
  | .cons k1 v1 (.cons k2 v2 rest) =>
    !jsLess k2 k1 && keysSortedF (.cons k2 v2 rest)

mutual
/-- Every object in the document has its keys sorted. -/
def sortedDocV : JVal → Bool
  | .jarr es => sortedDocL es
  | .jobj fs => keysSortedF fs && sortedDocF fs
  | _ => true
def sortedDocL : JList → Bool
  | .nil => true
  | .cons v rest => sortedDocV v && sortedDocL rest
def sortedDocF : JFields → Bool
  | .nil => true
  | .cons _ v rest => sortedDocV v && sortedDocF rest
end

/-! ### Document relations -/

/-- Pure permutation of an object's entries (no change inside values):
the reordering of `List.Perm`, on `JFields`. -/
inductive FPermP : JFields → JFields → Prop
  | nil : FPermP .nil .nil
  | cons (k : JStr) (v : JVal) {fs fs' : JFields} :
      FPermP fs fs' → FPermP (.cons k v fs) (.cons k v fs')
  | swap (k1 k2 : JStr) (v1 v2 : JVal) (fs : JFields) :
      FPermP (.cons k1 v1 (.cons k2 v2 fs)) (.cons k2 v2 (.cons k1 v1 fs))
  | trans {a b c : JFields} : FPermP a b → FPermP b c → FPermP a c

mutual
/-- `D'` equals `D` except for the order in which object keys are listed,
at any nesting depth: leaves are equal, arrays correspond element-wise,
and an object's entries are first related value-wise in place
(`FAligned`) and then purely permuted (`FPermP`). -/
inductive VPermV : JVal → JVal → Prop
  | vnull : VPermV .jnull .jnull
  | vbool (b : Bool) : VPermV (.jbool b) (.jbool b)
  | vnum (n : Int) : VPermV (.jnum n) (.jnum n)
  | vstr (s : JStr) : VPermV (.jstr s) (.jstr s)
  | varr {es es' : JList} : LAligned es es' → VPermV (.jarr es) (.jarr es')
  | vobj {fs mid fs' : JFields} :
      FAligned fs mid → FPermP mid fs' → VPermV (.jobj fs) (.jobj fs')
/-- Element-wise `VPermV` (arrays keep their order). -/
inductive LAligned : JList → JList → Prop
  | nil : LAligned .nil .nil
  | cons {v v' : JVal} {rest rest' : JList} :
      VPermV v v' → LAligned rest rest' → LAligned (.cons v rest) (.cons v' rest')
/-- Same keys in the same positions, values related by `VPermV`. -/
inductive FAligned : JFields → JFields → Prop
  | nil : FAligned .nil .nil
  | cons (k : JStr) {v v' : JVal} {rest rest' : JFields} :
      VPermV v v' → FAligned rest rest' →
        FAligned (.cons k v rest) (.cons k v' rest')
end

mutual
/-- Same tree shape and, for objects, the same keys in the same order:
two documents related by `ShapeV` differ at most in leaf values. -/
inductive ShapeV : JVal → JVal → Prop
  | snull : ShapeV .jnull .jnull
  | sbool (b b' : Bool) : ShapeV (.jbool b) (.jbool b')
  | snum (n n' : Int) : ShapeV (.jnum n) (.jnum n')
  | sstr (s s' : JStr) : ShapeV (.jstr s) (.jstr s')
  | sarr {es es' : JList} : ShapeL es es' → ShapeV (.jarr es) (.jarr es')
  | sobj {fs fs' : JFields} : ShapeF fs fs' → ShapeV (.jobj fs) (.jobj fs')
/-- Element-wise shape equality. -/
inductive ShapeL : JList → JList → Prop
  | nil : ShapeL .nil .nil
  | cons {v v' : JVal} {rest rest' : JList} :
      ShapeV v v' → ShapeL rest rest' → ShapeL (.cons v rest) (.cons v' rest')
/-- Same keys in order, shape-equal values. -/
inductive ShapeF : JFields → JFields → Prop
  | nil : ShapeF .nil .nil
  | cons (k : JStr) {v v' : JVal} {rest rest' : JFields} :
      ShapeV v v' → ShapeF rest rest' →
        ShapeF (.cons k v rest) (.cons k v' rest')
end

/-! ### `Meta.serializable` (`src/unnamed/part_005` lines 41-62)

Builds the snake-case wire object and deletes every `null`-valued key;
the surviving keys keep their insertion order. -/

/-- Append a key only when the value is present (the
`if (toSerialize[key] === null) delete toSerialize[key]` filtering). -/
def consIfPresent (k : JStr) (v : Option JStr) (rest : JFields) : JFields :=
  match v with
  | none => rest
  | some s => .cons k (.jstr s) rest

/-- The `plain` map as a JSON object of string values. -/
def plainFields : List (JStr × JStr) → JFields
  | [] => .nil
  | (k, v) :: rest => .cons k (.jstr v) (plainFields rest)

/-- `Meta.serializable`: `record_id`, `writer_id`, `user_id`, `type`,
`plain`, `created`, `last_modified`, `version`, with `null` fields
omitted.  (Key names are the UTF-16 units of the snake-case strings.) -/
def metaSerializable (m : Meta) : JFields :=
  consIfPresent [114, 101, 99, 111, 114, 100, 95, 105, 100] m.recordId
    (.cons [119, 114, 105, 116, 101, 114, 95, 105, 100] (.jstr m.writerId)
      (.cons [117, 115, 101, 114, 95, 105, 100] (.jstr m.userId)
        (.cons [116, 121, 112, 101] (.jstr m.type)
          (.cons [112, 108, 97, 105, 110] (.jobj (plainFields m.plain))
            (consIfPresent [99, 114, 101, 97, 116, 101, 100] m.created
              (consIfPresent
                [108, 97, 115, 116, 95, 109, 111, 100, 105, 102, 105, 101, 100]
                m.lastModified
                (consIfPresent [118, 101, 114, 115, 105, 111, 110] m.version
                  .nil)))))))

/-- `Except.isOk` specialised (used to state success of serialization). -/
def isOkE {ε α : Type} : Except ε α → Bool
  | .ok _ => true
  | .error _ => false

/-- Length of an embedded JS array. -/
def lenL : JList → Nat
  | .nil => 0
  | .cons _ rest => 1 + lenL rest

/-- The continuation guard of the decimal-rendering injectivity lemma:
true when the string does not begin with a decimal digit. -/
def noDigitHead : JStr → Bool
  | [] => true
  | c :: _ => !(48 ≤ c && c ≤ 57)

/-- Consecutive keys in strictly ascending `jsLess` order. -/
def keysStrictF : JFields → Bool
  | .nil => true
  | .cons _ _ .nil => true
  | .cons k1 v1 (.cons k2 v2 rest) =>
    jsLess k1 k2 && keysStrictF (.cons k2 v2 rest)

/-- Key-level image of `insertField`. -/
def insertKey (k : JStr) : List JStr → List JStr
  | [] => [k]
  | k2 :: rest => if jsLess k k2 then k :: k2 :: rest else k2 :: insertKey k rest

/-- Key-level image of `sortFields`. -/
def sortKeys : List JStr → List JStr
  | [] => []
  | k :: rest => insertKey k (sortKeys rest)

/-- Inverse of `hexDigit`. -/
def unhex (d : Nat) : Nat := if d ≤ 57 then d - 48 else d - 87

/-- Inverse of `hex4`. -/
def unhex4 (h1 h2 h3 h4 : Nat) : Nat :=
  ((unhex h1 * 16 + unhex h2) * 16 + unhex h3) * 16 + unhex h4

/-- Inverse of the two-character escapes emitted by `escapeStr`. -/
def unescSimple (e : Nat) : Nat :=
  if e = 34 then 34 else if e = 92 then 92 else if e = 98 then 8
  else if e = 116 then 9 else if e = 110 then 10 else if e = 102 then 12
  else if e = 114 then 13 else e

/-- Decoder of a JSON string literal body up to its closing quote: the
exact inverse of `escapeStr` on the strings `escapeStr` emits, used to
prove the escaping injective. -/
def descape : JStr → Option (JStr × JStr)
  | [] => none
  | 34 :: rest => some ([], rest)
  | 92 :: e :: rest =>
    if e = 117 then
      match rest with
      | h1 :: h2 :: h3 :: h4 :: rest2 =>
        (descape rest2).map (fun p => (unhex4 h1 h2 h3 h4 :: p.1, p.2))
      | _ => none
    else (descape rest).map (fun p => (unescSimple e :: p.1, p.2))
  | c :: rest => (descape rest).map (fun p => (c :: p.1, p.2))

/-- First value bound to key `k` (JS property lookup on the embedded
entry list; proof helper). -/
def fLookup (k : JStr) : JFields → Option JVal
  | .nil => none
  | .cons k2 v rest => if k = k2 then some v else fLookup k rest

/-- The decimal index keys `Object.keys` yields for an array tail whose
first element sits at index `i`. -/
def idxKeys (i : Nat) : JList → List JStr
  | .nil => []
  | .cons _ rest => natDigits i :: idxKeys (i + 1) rest

/-- `\x7b"a": null, "b": "x"\x7d`: a document with a `null` leaf. -/
def nullLeafDocA : JFields :=
  .cons [97] .jnull (.cons [98] (.jstr [120]) .nil)

/-- `\x7b"a": null, "b": "y"\x7d`: same shape as `nullLeafDocA`, different
string leaf. -/
def nullLeafDocB : JFields :=
  .cons [97] .jnull (.cons [98] (.jstr [121]) .nil)

/-- `\x7b"10": 1, "9": 0\x7d`: an object whose keys are both array
indices, listed in code-unit sorted order (`"10" < "9"` by code units). -/
def idxDoc : JFields :=
  .cons [49, 48] (.jnum 1) (.cons [57] (.jnum 0) .nil)

/-- The bytes the program emits for `idxDoc`: `\x7b"9":0,"10":1\x7d` —
the engine enumerates array-index keys in ascending numeric order. -/
def idxDocBytes : JStr :=
  [123, 34, 57, 34, 58, 48, 44, 34, 49, 48, 34, 58, 49, 125]

/-- The bytes a pure code-unit key sort would emit:
`\x7b"10":1,"9":0\x7d`. -/
def idxDocBytesSorted : JStr :=
  [123, 34, 49, 48, 34, 58, 49, 44, 34, 57, 34, 58, 48, 125]

/-- `\x7b"b": "x", "a": 1\x7d`. -/
def swapDocA : JFields :=
  .cons [98] (.jstr [120]) (.cons [97] (.jnum 1) .nil)

/-- `\x7b"a": 1, "b": "x"\x7d`: the keys of `swapDocA`, listed in the
other order. -/
def swapDocB : JFields :=
  .cons [97] (.jnum 1) (.cons [98] (.jstr [120]) .nil)

/-- `\x7b"a": 2\x7d`. -/
def flatDoc : JFields := .cons [97] (.jnum 2) .nil

/-- `\x7b"o": \x7b"b": 1, "a": [5, 6]\x7d\x7d`: a nested object holding an
unsorted object with a two-element array. -/
def nestedDoc : JFields :=
  .cons [111]
    (.jobj (.cons [98] (.jnum 1)
      (.cons [97] (.jarr (.cons (.jnum 5) (.cons (.jnum 6) .nil))) .nil)))
    .nil

/-- The array `[5, 6]`. -/
def twoArr : JList := .cons (.jnum 5) (.cons (.jnum 6) .nil)

/-- `\x7b"0": 5, "1": 6\x7d`: what `sortObject` rebuilds `twoArr` into. -/
def twoArrObj : JFields :=
  .cons [48] (.jnum 5) (.cons [49] (.jnum 6) .nil)

/-- The expected `sortObject` output for `nestedDoc`: every object
recursively key-sorted, the inner array rebuilt as an index-keyed
object. -/
def nestedSorted : JFields :=
  .cons [111]
    (.jobj (.cons [97]
      (.jobj (.cons [48] (.jnum 5) (.cons [49] (.jnum 6) .nil)))
      (.cons [98] (.jnum 1) .nil)))
    .nil

/-! # Theorems -/

theorem b64decode_b64encode (b : JStr) : b64decode (b64encode b) = b := by
  induction b with
  | nil => rfl
  | cons x xs ih =>
    show b64decode (95 :: (256 + x) :: b64encode xs) = x :: xs
    rw [b64decode, ih, Nat.add_sub_cancel_left]

theorem b64encode_no_dot (b : JStr) : 46 ∉ b64encode b := by
  induction b with
  | nil => simp [b64encode]
  | cons x xs ih =>
    show 46 ∉ 95 :: (256 + x) :: b64encode xs
    simp only [List.mem_cons]
    push_neg
    exact ⟨by omega, by omega, ih⟩

theorem splitDotAux_no_dot (cur p : JStr) (hp : 46 ∉ p) :
    splitDotAux cur p = [(cur.reverse ++ p)] := by
  induction p generalizing cur with
  | nil => simp [splitDotAux]
  | cons c rest ih =>
    simp only [List.mem_cons] at hp
    push_neg at hp
    simp [splitDotAux, Ne.symm hp.1, ih _ hp.2]

theorem splitDotAux_append (cur p : JStr) (rest : JStr) (hp : 46 ∉ p) :
    splitDotAux cur (p ++ 46 :: rest) =
      (cur.reverse ++ p) :: splitDotAux [] rest := by
  induction p generalizing cur with
  | nil => simp [splitDotAux]
  | cons c q ih =>
    simp only [List.mem_cons] at hp
    push_neg at hp
    simp [splitDotAux, Ne.symm hp.1, ih _ hp.2]

theorem splitDot_joinDot (parts : List JStr) (h : ∀ p ∈ parts, 46 ∉ p)
    (hne : parts ≠ []) : splitDot (joinDot parts) = parts := by
  induction parts with
  | nil => cases hne rfl
  | cons p rest ih =>
    cases rest with
    | nil => simpa [splitDot, joinDot] using splitDotAux_no_dot [] p (h p (by simp))
    | cons q rest' =>
      have hp : 46 ∉ p := h p (by simp)
      have hrest : ∀ x ∈ q :: rest', 46 ∉ x := fun x hx => h x (by simp [hx])
      have := ih hrest (by simp)
      simp only [joinDot, splitDot] at this ⊢
      rw [splitDotAux_append [] p _ hp]
      simpa using this

theorem lpTake_lpCons (x rest : JStr) : lpTake (lpCons x rest) = some (x, rest) := by
  simp [lpCons, lpTake]

theorem secretboxOpen_secretboxEasy (m n k : JStr) :
    secretboxOpenEasy (secretboxEasy m n k) n k = some m := by
  simp [secretboxEasy, secretboxOpenEasy, lpTake_lpCons]

theorem cryptoBoxOpen_cryptoBoxEasy (m n : JStr) (privR privS : JStr) :
    cryptoBoxOpenEasy (cryptoBoxEasy m n (pubOf privR) privS) n (pubOf privS) privR
      = some m := by
  simp [cryptoBoxEasy, cryptoBoxOpenEasy, lpTake_lpCons]

namespace Crypto

theorem decryptField_encryptField (accessKey dk efN edkN v : JStr) :
    decryptField accessKey (encryptField accessKey dk efN edkN v) = some v := by
  have hsplit : splitDot (joinDot [b64encode (secretboxEasy dk edkN accessKey),
      b64encode edkN, b64encode (secretboxEasy v efN dk), b64encode efN]) =
      [b64encode (secretboxEasy dk edkN accessKey), b64encode edkN,
        b64encode (secretboxEasy v efN dk), b64encode efN] := by
    refine splitDot_joinDot _ ?_ (by simp)
    intro p hp
    simp only [List.mem_cons, List.not_mem_nil, or_false] at hp
    rcases hp with h | h | h | h <;> subst h <;> exact b64encode_no_dot _
  simp [decryptField, encryptField, hsplit, b64decode_b64encode,
    secretboxOpen_secretboxEasy]

theorem decryptData_encryptData (accessKey : JStr) (rng : Nat → JStr) (i : Nat)
    (data : List (JStr × JStr)) :
    decryptData accessKey (encryptData accessKey rng i data) = some data := by
  induction data generalizing i with
  | nil => rfl
  | cons kv rest ih =>
    cases kv with
    | mk k v => simp [encryptData, decryptData, decryptField_encryptField, ih]

end Crypto

/-- C1 (amended): decrypting the result of `Crypto.encryptRecord R K`
under the same access key `K` always succeeds; the decrypted record's
`data` equals `R.data` field-for-field and its `writerId`, `userId`,
`type`, `plain` (and `signature`) equal those of `R`, but the four
server-assigned meta fields `recordId`, `created`, `lastModified`,
`version` come back `null` — `encryptRecord`'s meta clone drops them, so
they are preserved only when `R` did not carry them. -/
theorem crypto_roundtrip_preserves_data_resets_server_meta
    (R : Record) (K : JStr) (rng : Nat → JStr) :
    Crypto.decryptRecord (Crypto.encryptRecord R K rng) K =
      some { meta :=
              { recordId := none
                writerId := R.meta.writerId
                userId := R.meta.userId
                type := R.meta.type
                plain := R.meta.plain
                created := none
                lastModified := none
                version := none }
             data := R.data
             signature := R.signature } := by
  simp [Crypto.encryptRecord, Crypto.decryptRecord, Meta.init,
    Crypto.decryptData_encryptData]

/-- C1 counterexample: for the concrete record `sampleServerRecord`, whose
meta carries `recordId`, `created`, `lastModified` and `version`, the
encrypt-then-decrypt round trip returns a record whose `recordId` is
`null`, so the claim "meta fields all equal the corresponding fields of
R.meta" fails as stated. -/
theorem crypto_roundtrip_drops_recordId_cex :
    (Crypto.decryptRecord (Crypto.encryptRecord sampleServerRecord sampleAk sampleRng)
        sampleAk).map (fun d => d.meta.recordId) = some none ∧
      sampleServerRecord.meta.recordId = some [114, 49] :=
  ⟨rfl, rfl⟩

theorem hlookup_cons_ne {α : Type} (l : List (Nat × α)) (k id : Nat) (v : α)
    (h : k ≠ id) : hlookup ((k, v) :: l) id = hlookup l id := by
  simp [hlookup, h]

theorem hlookup_some_mem {α : Type} {l : List (Nat × α)} {id : Nat} {v : α}
    (h : hlookup l id = some v) : (id, v) ∈ l := by
  induction l with
  | nil => simp [hlookup] at h
  | cons p rest ih =>
    cases p with
    | mk k w =>
      by_cases hk : k = id
      · subst hk
        simp [hlookup] at h
        simp [h]
      · rw [hlookup_cons_ne _ _ _ _ hk] at h
        exact List.mem_cons_of_mem _ (ih h)

theorem hlookup_none_of_keys_lt {α : Type} {l : List (Nat × α)} {n id : Nat}
    (hl : ∀ p ∈ l, p.1 < n) (hid : n ≤ id) : hlookup l id = none := by
  induction l with
  | nil => rfl
  | cons p rest ih =>
    cases p with
    | mk k w =>
      have hk : k < n := hl (k, w) (by simp)
      rw [hlookup_cons_ne _ _ _ _ (by omega)]
      exact ih (fun q hq => hl q (List.mem_cons_of_mem _ hq))

theorem setDataField_metas (h : Heap) (id : Nat) (k v : JStr) :
    (setDataField h id k v).metas = h.metas := by
  unfold setDataField
  cases hlookup h.datas id <;> rfl

theorem setDataField_recs (h : Heap) (id : Nat) (k v : JStr) :
    (setDataField h id k v).recs = h.recs := by
  unfold setDataField
  cases hlookup h.datas id <;> rfl

theorem setDataField_nextId (h : Heap) (id : Nat) (k v : JStr) :
    (setDataField h id k v).nextId = h.nextId := by
  unfold setDataField
  cases hlookup h.datas id <;> rfl

theorem setDataField_datas_ne (h : Heap) (id id2 : Nat) (k v : JStr)
    (hne : id ≠ id2) :
    hlookup (setDataField h id k v).datas id2 = hlookup h.datas id2 := by
  unfold setDataField
  cases hlookup h.datas id with
  | none => rfl
  | some d => exact hlookup_cons_ne _ _ _ _ hne

theorem writeEncFields_spec (dId : Nat) (ak : JStr) (rng : Nat → JStr)
    (entries : List (JStr × JStr)) :
    ∀ (i : Nat) (h : Heap),
      (writeEncFields h dId ak rng i entries).metas = h.metas ∧
        (writeEncFields h dId ak rng i entries).recs = h.recs ∧
          (writeEncFields h dId ak rng i entries).nextId = h.nextId ∧
            ∀ id2, id2 ≠ dId →
              hlookup (writeEncFields h dId ak rng i entries).datas id2 =
                hlookup h.datas id2 := by
  induction entries with
  | nil => intro i h; exact ⟨rfl, rfl, rfl, fun _ _ => rfl⟩
  | cons kv rest ih =>
    intro i h
    cases kv with
    | mk k v =>
      obtain ⟨h1, h2, h3, h4⟩ := ih (i + 1)
        (setDataField h dId k
          (Crypto.encryptField ak (rng (3 * i)) (rng (3 * i + 1)) (rng (3 * i + 2)) v))
      refine ⟨?_, ?_, ?_, ?_⟩
      · rw [writeEncFields, h1, setDataField_metas]
      · rw [writeEncFields, h2, setDataField_recs]
      · rw [writeEncFields, h3, setDataField_nextId]
      · intro id2 hid2
        rw [writeEncFields, h4 id2 hid2, setDataField_datas_ne _ _ _ _ _ (Ne.symm hid2)]

theorem writeDecFields_spec (dId : Nat) (ak : JStr)
    (entries : List (JStr × JStr)) :
    ∀ (h h4 : Heap), writeDecFields h dId ak entries = some h4 →
      h4.metas = h.metas ∧ h4.recs = h.recs ∧ h4.nextId = h.nextId ∧
        ∀ id2, id2 ≠ dId → hlookup h4.datas id2 = hlookup h.datas id2 := by
  induction entries with
  | nil =>
    intro h h4 hres
    cases hres
    exact ⟨rfl, rfl, rfl, fun _ _ => rfl⟩
  | cons kv rest ih =>
    intro h h4 hres
    cases kv with
    | mk k v =>
      simp only [writeDecFields, Option.bind_eq_some] at hres
      obtain ⟨f, _, hres⟩ := hres
      obtain ⟨h1, h2, h3, h4'⟩ := ih _ _ hres
      refine ⟨?_, ?_, ?_, ?_⟩
      · rw [h1, setDataField_metas]
      · rw [h2, setDataField_recs]
      · rw [h3, setDataField_nextId]
      · intro id2 hid2
        rw [h4' id2 hid2, setDataField_datas_ne _ _ _ _ _ (Ne.symm hid2)]

/-- C10: `Crypto.encryptRecord` and `Crypto.decryptRecord` (heap view)
allocate fresh meta, data and record objects and never write through the
input: every object present before the call — in particular the input
record's meta object and its data map — is unchanged, and the returned
record id is a fresh allocation. -/
theorem crypto_record_ops_leave_input_unchanged
    (h : Heap) (rid : Nat) (ak : JStr) (rng : Nat → JStr) (hwf : heapWF h) :
    (∀ h' outId, encryptRecordHeap h rid ak rng = some (h', outId) →
        heapFrame h h' rid outId) ∧
      ∀ h' outId, decryptRecordHeap h rid ak = some (h', outId) →
        heapFrame h h' rid outId := by
  obtain ⟨hwm, hwd, hwr⟩ := hwf
  constructor
  · intro h' outId hres
    simp only [encryptRecordHeap, allocMeta, allocData, allocRec,
      Option.bind_eq_some, Option.some.injEq, Prod.mk.injEq] at hres
    obtain ⟨r, hr, m, hm, d, hd, houtH, houtId⟩ := hres
    obtain ⟨e1, e2, e3, e4⟩ := writeEncFields_spec (h.nextId + 1) ak rng d 0
      { nextId := h.nextId + 1 + 1 + 1
        metas := (h.nextId, Meta.init m.writerId m.userId m.type m.plain) :: h.metas
        datas := (h.nextId + 1, []) :: h.datas
        recs := (h.nextId + 2, ⟨h.nextId, h.nextId + 1, r.signature⟩) :: h.recs }
    have hrb : rid < h.nextId ∧ r.metaId < h.nextId ∧ r.dataId < h.nextId :=
      hwr _ (hlookup_some_mem hr)
    obtain ⟨hrb1, hrb2, hrb3⟩ := hrb
    subst houtH houtId
    refine ⟨?_, ?_, ?_, ?_⟩
    · intro id hid
      refine ⟨?_, ?_, ?_⟩
      · rw [e1, hlookup_cons_ne h.metas h.nextId id _ (by omega)]
      · rw [e4 id (by omega), hlookup_cons_ne h.datas (h.nextId + 1) id _ (by omega)]
      · rw [e2, hlookup_cons_ne h.recs (h.nextId + 2) id _ (by omega)]
    · omega
    · exact @hlookup_none_of_keys_lt RecV h.recs h.nextId (h.nextId + 2)
        (fun p hp => (hwr p hp).1) (by omega)
    · intro r' hr'
      rw [hr'] at hr
      cases hr
      constructor
      · rw [e1, hlookup_cons_ne h.metas h.nextId r.metaId _ (by omega)]
      · rw [e4 _ (by omega), hlookup_cons_ne h.datas (h.nextId + 1) r.dataId _ (by omega)]
  · intro h' outId hres
    simp only [decryptRecordHeap, allocMeta, allocData, allocRec,
      Option.bind_eq_some, Option.map_eq_some', Prod.mk.injEq] at hres
    obtain ⟨r, hr, m, hm, d, hd, h4, hw, houtH, houtId⟩ := hres
    obtain ⟨e1, e2, e3, e4⟩ := writeDecFields_spec (h.nextId + 1) ak d
      { nextId := h.nextId + 1 + 1 + 1
        metas := (h.nextId,
          { Meta.init m.writerId m.userId m.type m.plain with
            recordId := m.recordId, created := m.created
            lastModified := m.lastModified, version := m.version }) :: h.metas
        datas := (h.nextId + 1, []) :: h.datas
        recs := (h.nextId + 2, ⟨h.nextId, h.nextId + 1, r.signature⟩) :: h.recs }
      h4 hw
    have hrb : rid < h.nextId ∧ r.metaId < h.nextId ∧ r.dataId < h.nextId :=
      hwr _ (hlookup_some_mem hr)
    obtain ⟨hrb1, hrb2, hrb3⟩ := hrb
    subst houtH houtId
    refine ⟨?_, ?_, ?_, ?_⟩
    · intro id hid
      refine ⟨?_, ?_, ?_⟩
      · rw [e1, hlookup_cons_ne h.metas h.nextId id _ (by omega)]
      · rw [e4 id (by omega), hlookup_cons_ne h.datas (h.nextId + 1) id _ (by omega)]
      · rw [e2, hlookup_cons_ne h.recs (h.nextId + 2) id _ (by omega)]
    · omega
    · exact @hlookup_none_of_keys_lt RecV h.recs h.nextId (h.nextId + 2)
        (fun p hp => (hwr p hp).1) (by omega)
    · intro r' hr'
      rw [hr'] at hr
      cases hr
      constructor
      · rw [e1, hlookup_cons_ne h.metas h.nextId r.metaId _ (by omega)]
      · rw [e4 _ (by omega), hlookup_cons_ne h.datas (h.nextId + 1) r.dataId _ (by omega)]

/-- C10 witness: on the concrete heap `sampleHeap`, encrypting record 2
leaves the input record's meta and data objects exactly as they were. -/
theorem crypto_record_ops_leave_input_unchanged_witness :
    heapWF sampleHeap ∧
      ∀ h' outId,
        encryptRecordHeap sampleHeap 2 sampleAk sampleRng = some (h', outId) →
          hlookup h'.datas 1 = some sampleServerRecord.data ∧
            hlookup h'.metas 0 = some sampleServerRecord.meta :=
  ⟨by decide, fun h' outId hres => by
    have hf := (crypto_record_ops_leave_input_unchanged sampleHeap 2 sampleAk
      sampleRng (by decide)).1 h' outId hres
    obtain ⟨hall, -, -, -⟩ := hf
    obtain ⟨hm, hd, -⟩ := hall 1 (by decide)
    obtain ⟨hm0, -, -⟩ := hall 0 (by decide)
    exact ⟨by rw [hd]; rfl, by rw [hm0]; rfl⟩⟩

theorem alookup_aInsert {κ ν : Type} [DecidableEq κ] (l : List (κ × ν)) (k : κ)
    (v : ν) : alookup (aInsert l k v) k = some v := by
  simp [aInsert, alookup]

theorem alookup_filter_ne {κ ν : Type} [DecidableEq κ] (l : List (κ × ν))
    (k k' : κ) (hk : k' ≠ k) :
    alookup (l.filter (fun p => ¬ p.1 = k)) k' = alookup l k' := by
  induction l with
  | nil => rfl
  | cons p rest ih =>
    simp only [decide_not] at ih
    cases p with
    | mk a b =>
      by_cases ha : a = k
      · subst ha
        simp [alookup, Ne.symm hk, ih, decide_not]
      · by_cases ha' : a = k'
        · subst ha'
          simp [alookup, ha, List.filter, decide_not, ih]
        · simp [alookup, ha, ha', ih, List.filter, decide_not]

theorem alookup_aInsert_ne {κ ν : Type} [DecidableEq κ] (l : List (κ × ν))
    (k k' : κ) (v : ν) (hk : k' ≠ k) :
    alookup (aInsert l k v) k' = alookup l k' := by
  simp only [aInsert, alookup, Ne.symm hk, if_false]
  exact alookup_filter_ne l k k' hk

theorem alookup_aErase {κ ν : Type} [DecidableEq κ] (l : List (κ × ν)) (k : κ) :
    alookup (aErase l k) k = none := by
  induction l with
  | nil => rfl
  | cons p rest ih =>
    cases p with
    | mk a b =>
      by_cases ha : a = k
      · subst ha; simpa [aErase, List.filter] using ih
      · simpa [aErase, List.filter, ha, alookup, ih] using ih

theorem alookup_aErase_ne {κ ν : Type} [DecidableEq κ] (l : List (κ × ν))
    (k k' : κ) (hk : k' ≠ k) :
    alookup (aErase l k) k' = alookup l k' := by
  exact alookup_filter_ne l k k' hk

/-- C7: `Client.delete` succeeds exactly on response status 204 or 403
(the deliberate idempotence mapping), raises `Conflict` on 409, and
raises the generic transport error on every other status — for any record
id and for both the safe and unsafe URL forms. -/
theorem clientDelete_status_mapping (recordId : JStr) (version : Option JStr)
    (status : Nat) :
    (clientDelete recordId version status = .ok true ↔
        status = 204 ∨ status = 403) ∧
      (status = 409 → clientDelete recordId version status = .error .conflict) ∧
        (status ≠ 204 → status ≠ 403 → status ≠ 409 →
          clientDelete recordId version status = .error .deleteFailed) := by
  unfold clientDelete
  refine ⟨?_, ?_, ?_⟩
  · split_ifs with h1 h2 h3 <;> simp_all
  · intro h; subst h; simp
  · intro h1 h2 h3; simp [h1, h2, h3]

/-- C7 witness: the mapping at the concrete statuses 204, 403, 409, 500. -/
theorem clientDelete_status_mapping_witness :
    clientDelete [114] none 204 = .ok true ∧
      clientDelete [114] none 403 = .ok true ∧
        clientDelete [114] (some [118]) 409 = .error .conflict ∧
          clientDelete [114] (some [118]) 500 = .error .deleteFailed :=
  ⟨(clientDelete_status_mapping [114] none 204).1.mpr (Or.inl rfl),
    (clientDelete_status_mapping [114] none 403).1.mpr (Or.inr rfl),
    (clientDelete_status_mapping [114] (some [118]) 409).2.1 rfl,
    (clientDelete_status_mapping [114] (some [118]) 500).2.2
      (by decide) (by decide) (by decide)⟩

/-- C8: `getToken` — when the cached bearer token is absent or expired
(`Date.now()` past the cached timeout), a token fetch happens and the
fresh token is cached with its expiry set to the parsed server
`expires_at`; when a token is cached and unexpired, it is returned with
no fetch and no state change; and after a fetch, every request issued at
or before the cached `expires_at` reuses the fetched token without
another fetch. -/
theorem getToken_caches_until_expiry (c : ClientState) (now : Int)
    (resp : TokenResp) :
    ((c.authToken = none ∨ now > c.authTokenTimeout) →
        getToken c now resp =
          ({ c with authToken := some resp.accessToken
                    authTokenTimeout := resp.expiresAtParsed },
            [.tokenFetch], resp.accessToken)) ∧
      (∀ t, c.authToken = some t → now ≤ c.authTokenTimeout →
          getToken c now resp = (c, [], t)) ∧
        ((c.authToken = none ∨ now > c.authTokenTimeout) →
          ∀ now' resp', now' ≤ resp.expiresAtParsed →
            getToken (getToken c now resp).1 now' resp' =
              ((getToken c now resp).1, [], resp.accessToken)) := by
  refine ⟨?_, ?_, ?_⟩
  · intro h
    cases hc : c.authToken with
    | none => simp [getToken, hc]
    | some t =>
      have hlt : now > c.authTokenTimeout := by
        rcases h with h | h
        · rw [hc] at h; cases h
        · exact h
      simp [getToken, hc, hlt]
  · intro t ht hle
    simp [getToken, ht, not_lt.mpr hle]
  · intro h now' resp' hle
    cases hc : c.authToken with
    | none => simp [getToken, hc, not_lt.mpr hle]
    | some t =>
      have hlt : now > c.authTokenTimeout := by
        rcases h with h | h
        · rw [hc] at h; cases h
        · exact h
      simp [getToken, hc, hlt, not_lt.mpr hle]

/-- C8 witness: on a concrete empty token slot, the fetch caches the
server expiry 5000 and a second request at time 4000 reuses the token
without fetching. -/
theorem getToken_caches_until_expiry_witness :
    getToken { config := sampleWorld.client.config, authToken := none
               authTokenTimeout := 0, akCache := [] } 100
        { accessToken := [116], expiresAtParsed := 5000 } =
      ({ config := sampleWorld.client.config, authToken := some [116]
         authTokenTimeout := 5000, akCache := [] }, [.tokenFetch], [116]) ∧
      getToken { config := sampleWorld.client.config, authToken := some [116]
                 authTokenTimeout := 5000, akCache := [] } 4000
          { accessToken := [117], expiresAtParsed := 9000 } =
        ({ config := sampleWorld.client.config, authToken := some [116]
           authTokenTimeout := 5000, akCache := [] }, [], [116]) :=
  ⟨(getToken_caches_until_expiry _ 100 _).1 (Or.inl rfl),
    (getToken_caches_until_expiry _ 4000 _).2.1 [116] rfl (by decide)⟩

/-- The legacy `getToken` of `src/lib/client.js` ignores the server's
`expires_at`: the cached expiry is `Date.now() + 600` (milliseconds). -/
theorem getTokenLib_expiry_ignores_expires_at (c : ClientState) (now : Int)
    (resp : TokenResp) (h : c.authToken = none) :
    (getTokenLib c now resp).1.authTokenTimeout = now + 600 := by
  simp [getTokenLib, h]

theorem getAccessKey_fetch_on_miss (w : World) (wr u r t : JStr)
    (h : alookup w.client.akCache (cacheKey wr u t) = none) :
    (getAccessKey w wr u r t).1 = [.akGet wr u r t] := by
  simp only [getAccessKey, h]
  split
  · rfl
  · split <;> rfl

/-- C9: the AK cache is keyed by the dotted `(writerId, userId, type)`
string only — the reader id is not part of the key.  A successful
`putAccessKey` for any reader overwrites the single cached AK for the
triple (and touches no other key); a successful `deleteAccessKey` for any
reader removes the writer's own cached AK for the triple (and touches no
other key), and the next `getAccessKey` for that triple — with any reader
— misses the cache and issues a server fetch. -/
theorem akCache_reader_not_in_key (w : World) (wr u r r2 t ak : JStr) :
    (∀ tr w' akr, putAccessKey w wr u r t ak = (tr, .ok (w', akr)) →
        alookup w'.client.akCache (cacheKey wr u t) = some ak ∧
          ∀ k, k ≠ cacheKey wr u t →
            alookup w'.client.akCache k = alookup w.client.akCache k) ∧
      ∀ tr w' b, deleteAccessKey w wr u r t = (tr, .ok (w', b)) →
          alookup w'.client.akCache (cacheKey wr u t) = none ∧
            (∀ k, k ≠ cacheKey wr u t →
              alookup w'.client.akCache k = alookup w.client.akCache k) ∧
            (getAccessKey w' wr u r2 t).1 = [.akGet wr u r2 t] := by
  constructor
  · intro tr w' akr hres
    unfold putAccessKey at hres
    cases hc : alookup w.server.clients r with
    | none => rw [hc] at hres; simp at hres
    | some pubBytes =>
      rw [hc] at hres
      simp only [Prod.mk.injEq, Except.ok.injEq] at hres
      obtain ⟨-, hw', -⟩ := hres
      subst hw'
      constructor
      · exact alookup_aInsert _ _ _
      · intro k hk
        exact alookup_aInsert_ne _ _ _ _ hk
  · intro tr w' b hres
    unfold deleteAccessKey at hres
    simp only [Prod.mk.injEq, Except.ok.injEq] at hres
    obtain ⟨-, hw', -⟩ := hres
    subst hw'
    have hnone : alookup (dropCache
        { w with server := w.server.eakDelete (wr, u, r, t) }
        (cacheKey wr u t)).client.akCache (cacheKey wr u t) = none :=
      alookup_aErase _ _
    refine ⟨hnone, ?_, ?_⟩
    · intro k hk
      exact alookup_aErase_ne _ _ _ hk
    · exact getAccessKey_fetch_on_miss _ _ _ _ _ hnone

/-- C9 witness: on the concrete `sampleWorld`, a `putAccessKey` for
reader `[66]` caches the AK under `` `65.65.84` `` and the following
`deleteAccessKey` for the same reader empties that entry again. -/
theorem akCache_reader_not_in_key_witness :
    (∀ tr w' akr,
        putAccessKey sampleWorld [65] [65] [66] [84] [3, 3] = (tr, .ok (w', akr)) →
          alookup w'.client.akCache (cacheKey [65] [65] [84]) = some [3, 3]) ∧
      ∀ tr w' b,
        deleteAccessKey sampleWorld [65] [65] [66] [84] = (tr, .ok (w', b)) →
          alookup w'.client.akCache (cacheKey [65] [65] [84]) = none :=
  ⟨fun tr w' akr hres =>
      ((akCache_reader_not_in_key sampleWorld [65] [65] [66] [66] [84]
        [3, 3]).1 tr w' akr hres).1,
    fun tr w' b hres =>
      ((akCache_reader_not_in_key sampleWorld [65] [65] [66] [66] [84]
        [3, 3]).2 tr w' b hres).1⟩

theorem getAccessKey_ok_state (w : World) (wr u r t : JStr) (tr : List Ev)
    (w' : World) (res : Option JStr)
    (h : getAccessKey w wr u r t = (tr, .ok (w', res))) :
    w'.client.config = w.client.config := by
  simp only [getAccessKey] at h
  split at h
  · simp only [Prod.mk.injEq, Except.ok.injEq] at h
    obtain ⟨-, hw, -⟩ := h
    subst hw; rfl
  · split at h
    · simp only [Prod.mk.injEq, Except.ok.injEq] at h
      obtain ⟨-, hw, -⟩ := h
      subst hw; rfl
    · split at h
      · simp at h
      · simp only [Prod.mk.injEq, Except.ok.injEq] at h
        obtain ⟨-, hw, -⟩ := h
        subst hw; rfl

theorem putAccessKey_ok_state (w : World) (wr u r t ak : JStr) (tr : List Ev)
    (w' : World) (akr : JStr)
    (h : putAccessKey w wr u r t ak = (tr, .ok (w', akr))) :
    w'.client.config = w.client.config := by
  simp only [putAccessKey] at h
  split at h
  · simp at h
  · simp only [Prod.mk.injEq, Except.ok.injEq] at h
    obtain ⟨-, hw, -⟩ := h
    subst hw; rfl

theorem share_ok_config (w : World) (t r : JStr) (tr : List Ev) (w' : World)
    (b : Bool) (h : share w t r = (tr, .ok (w', b))) :
    w'.client.config = w.client.config := by
  simp only [share] at h
  split at h
  · simp only [Prod.mk.injEq, Except.ok.injEq] at h
    obtain ⟨-, hw, -⟩ := h
    subst hw; rfl
  · split at h
    · simp at h
    · split at h
      · simp at h
      · rename_i heq1
        split at h
        · simp at h
        · rename_i heq2
          split at h
          · simp at h
          · rename_i heq3
            simp only [Prod.mk.injEq, Except.ok.injEq] at h
            obtain ⟨-, hw, -⟩ := h
            subst hw
            have h3 := putAccessKey_ok_state _ _ _ _ _ _ _ _ _ heq3
            have h1 := getAccessKey_ok_state _ _ _ _ _ _ _ _ heq1
            revert heq2
            split
            · intro heq2
              simp only [Prod.mk.injEq, Except.ok.injEq] at heq2
              obtain ⟨-, hw2, -⟩ := heq2
              subst hw2
              simpa [h1] using h3
            · intro heq2
              have h2 := putAccessKey_ok_state _ _ _ _ _ _ _ _ _ heq2
              simp only [draw] at h2
              rw [h3, h2, h1]

theorem revoke_ok_eq (w : World) (t r : JStr)
    (hne : r ≠ w.client.config.clientId) (hemail : emailTest r = false) :
    revoke w t r =
      ([.policyPut w.client.config.clientId w.client.config.clientId r t false,
          .akDelete w.client.config.clientId w.client.config.clientId r t],
        .ok (dropCache
          { w with server :=
              ((w.server.policyWrite
                  (w.client.config.clientId, w.client.config.clientId, r, t)
                  false).eakDelete
                (w.client.config.clientId, w.client.config.clientId, r, t)) }
          (cacheKey w.client.config.clientId w.client.config.clientId t),
          true)) := by
  simp [revoke, deleteAccessKey, hne, hemail]

/-- C5: after a successful `share(type, reader)` followed by a successful
`revoke(type, reader)` (reader distinct from the client, not an email),
an access-key get for `(self, self, reader, type)` misses the cache,
receives 404 from the server and returns absent without touching the
state, and the AK cache holds no entry under the
`(self, self, type)` key — the only key a reader-related entry could
live under. -/
theorem share_then_revoke_access_absent (w : World) (t readerId : JStr)
    (tr1 tr2 : List Ev) (w1 w2 : World)
    (hne : readerId ≠ w.client.config.clientId)
    (hemail : emailTest readerId = false)
    (hs : share w t readerId = (tr1, .ok (w1, true)))
    (hr : revoke w1 t readerId = (tr2, .ok (w2, true))) :
    getAccessKey w2 w.client.config.clientId w.client.config.clientId readerId t
        = ([.akGet w.client.config.clientId w.client.config.clientId readerId t],
            .ok (w2, none)) ∧
      alookup w2.client.akCache
          (cacheKey w.client.config.clientId w.client.config.clientId t) =
        none := by
  have hcfg : w1.client.config = w.client.config :=
    share_ok_config _ _ _ _ _ _ hs
  have hne1 : readerId ≠ w1.client.config.clientId := by
    rw [hcfg]; exact hne
  rw [revoke_ok_eq w1 t readerId hne1 hemail] at hr
  simp only [Prod.mk.injEq, Except.ok.injEq] at hr
  obtain ⟨-, hw2, -⟩ := hr
  have hcache : alookup w2.client.akCache
      (cacheKey w.client.config.clientId w.client.config.clientId t) = none := by
    rw [← hw2]
    simp only [dropCache, hcfg]
    exact alookup_aErase _ _
  refine ⟨?_, hcache⟩
  have heak : w2.server.eakGet
      (w.client.config.clientId, w.client.config.clientId, readerId, t) = none := by
    rw [← hw2]
    simp only [dropCache, Server.eakGet, Server.eakDelete, hcfg]
    rw [alookup_aErase]
    rfl
  simp only [getAccessKey, hcache, heak]

/-- C5 witness: running `share` then `revoke` for reader `[66]` on the
concrete `sampleWorld` leaves no cached AK under `` `65.65.84` `` and the
subsequent access-key get returns absent. -/
theorem share_then_revoke_access_absent_witness :
    alookup (okWorld (revoke (okWorld (share sampleWorld [84] [66]) sampleWorld)
          [84] [66]) sampleWorld).client.akCache
        (cacheKey [65] [65] [84]) = none ∧
      (getAccessKey (okWorld (revoke (okWorld (share sampleWorld [84] [66])
            sampleWorld) [84] [66]) sampleWorld) [65] [65] [66] [84]).2 =
        .ok (okWorld (revoke (okWorld (share sampleWorld [84] [66]) sampleWorld)
          [84] [66]) sampleWorld, none) := by
  have h := share_then_revoke_access_absent sampleWorld [84] [66] _ _ _ _
    (by decide) (by decide) rfl rfl
  exact ⟨h.2, congrArg Prod.snd h.1⟩

theorem getAccessKey_ok_trace (w : World) (wr u r t : JStr) (tr : List Ev)
    (w' : World) (res : Option JStr)
    (h : getAccessKey w wr u r t = (tr, .ok (w', res))) :
    tr = [] ∨ tr = [.akGet wr u r t] := by
  simp only [getAccessKey] at h
  split at h
  · exact Or.inl (congrArg Prod.fst h).symm
  · split at h
    · exact Or.inr (congrArg Prod.fst h).symm
    · split at h
      · simp at h
      · exact Or.inr (congrArg Prod.fst h).symm

theorem putAccessKey_ok_trace (w : World) (wr u r t ak : JStr) (tr : List Ev)
    (w' : World) (akr : JStr)
    (h : putAccessKey w wr u r t ak = (tr, .ok (w', akr))) :
    tr = [.clientGet r, .akPut wr u r t] := by
  simp only [putAccessKey] at h
  split at h
  · simp at h
  · exact (congrArg Prod.fst h).symm

/-- C6: request ordering inside one sharing-controller call.  In every
successful `share(type, reader)` with a non-self, non-email reader, the
trace ends with the reader's access-key PUT immediately followed by the
allow-policy PUT (so the AK put completes before the policy PUT is
issued, which is not preceded by any policy PUT); in every successful
`revoke(type, reader)`, the trace is exactly the deny-policy PUT followed
by the access-key DELETE. -/
theorem share_revoke_request_order (w : World) (t r : JStr)
    (hne : r ≠ w.client.config.clientId) (hemail : emailTest r = false) :
    (∀ tr w', share w t r = (tr, .ok (w', true)) →
        ∃ pre, tr = pre ++
            [.akPut w.client.config.clientId w.client.config.clientId r t,
              .policyPut w.client.config.clientId w.client.config.clientId r t
                true] ∧
          Ev.policyPut w.client.config.clientId w.client.config.clientId r t true
            ∉ pre) ∧
      ∀ tr w', revoke w t r = (tr, .ok (w', true)) →
        tr = [.policyPut w.client.config.clientId w.client.config.clientId r t
            false,
          .akDelete w.client.config.clientId w.client.config.clientId r t] := by
  constructor
  · intro tr w' h
    simp only [share, hne, hemail, if_false, Bool.false_eq_true, ite_false] at h
    rcases hq1 : getAccessKey w w.client.config.clientId w.client.config.clientId
        w.client.config.clientId t with ⟨tr1, r1⟩
    rw [hq1] at h
    rcases r1 with e | ⟨w1, akOpt⟩
    all_goals dsimp only at h
    · simp at h
    · have hens : ∀ tr2 w2 ak tr3 w3 akr,
          putAccessKey w2 w.client.config.clientId w.client.config.clientId r t ak
            = (tr3, .ok (w3, akr)) →
          (tr2 = [] ∨ tr2 = [.clientGet w.client.config.clientId,
            .akPut w.client.config.clientId w.client.config.clientId
              w.client.config.clientId t]) →
          tr = tr1 ++ tr2 ++ tr3 ++
            [.policyPut w.client.config.clientId w.client.config.clientId r t
              true] →
          ∃ pre, tr = pre ++
              [.akPut w.client.config.clientId w.client.config.clientId r t,
                .policyPut w.client.config.clientId w.client.config.clientId r t
                  true] ∧
            Ev.policyPut w.client.config.clientId w.client.config.clientId r t
              true ∉ pre := by
        intro tr2 w2 ak tr3 w3 akr hq3 htr2 htr
        have htr3 := putAccessKey_ok_trace _ _ _ _ _ _ _ _ _ hq3
        have htr1 := getAccessKey_ok_trace _ _ _ _ _ _ _ _ hq1
        refine ⟨tr1 ++ tr2 ++ [.clientGet r], ?_, ?_⟩
        · rw [htr, htr3]
          simp
        · rcases htr1 with h1 | h1 <;> rcases htr2 with h2 | h2 <;>
            subst h1 h2 <;> simp
      rcases akOpt with _ | ak0
      all_goals dsimp only at h
      · rcases hq2 : putAccessKey (draw w1).2 w.client.config.clientId
            w.client.config.clientId w.client.config.clientId t (draw w1).1 with
          ⟨tr2, r2⟩
        rw [hq2] at h
        rcases r2 with e | ⟨w2, ak⟩
        all_goals dsimp only at h
        · simp at h
        · rcases hq3 : putAccessKey w2 w.client.config.clientId
              w.client.config.clientId r t ak with ⟨tr3, r3⟩
          rw [hq3] at h
          rcases r3 with e | ⟨w3, akr⟩
          all_goals dsimp only at h
          · simp at h
          · exact hens tr2 w2 ak tr3 w3 akr hq3
              (Or.inr (putAccessKey_ok_trace _ _ _ _ _ _ _ _ _ hq2))
              (congrArg Prod.fst h).symm
      · rcases hq3 : putAccessKey w1 w.client.config.clientId
            w.client.config.clientId r t ak0 with ⟨tr3, r3⟩
        rw [hq3] at h
        rcases r3 with e | ⟨w3, akr⟩
        all_goals dsimp only at h
        · simp at h
        · have := hens [] w1 ak0 tr3 w3 akr hq3 (Or.inl rfl)
          apply this
          have := (congrArg Prod.fst h).symm
          simpa using this
  · intro tr w' h
    rw [revoke_ok_eq w t r hne hemail] at h
    exact (congrArg Prod.fst h).symm

/-- C6 witness: the concrete traces of `share` and `revoke` on
`sampleWorld` for reader `[66]`. -/
theorem share_revoke_request_order_witness :
    (∃ pre, (share sampleWorld [84] [66]).1 = pre ++
        [.akPut [65] [65] [66] [84], .policyPut [65] [65] [66] [84] true] ∧
          Ev.policyPut [65] [65] [66] [84] true ∉ pre) ∧
      (revoke sampleWorld [84] [66]).1 =
        [.policyPut [65] [65] [66] [84] false, .akDelete [65] [65] [66] [84]] := by
  have h := share_revoke_request_order sampleWorld [84] [66] (by decide) (by decide)
  constructor
  · exact h.1 _ _ rfl
  · exact h.2 _ _ rfl

/-- C4: `QueryResult.next` as written cannot decrypt any data-bearing
page: on the concrete one-result response `sampleResp` it throws a
`TypeError`, because it reads `this.config.privateKey` while a
`QueryResult` has no `config` property — instead of routing through the
owning client's `_getCachedAk` helper.  The spec-modelled corrected
cursor (`queryNextSpec`) on the same input succeeds: it decrypts the
result with the client's key via `_getCachedAk`, populates the AK cache
under `` `87.85.84` ``, advances `afterIndex` to `last_index`, and
returns the decrypted record. -/
theorem queryNext_reads_undefined_config :
    queryNext sampleQR sampleResp = .error .typeError ∧
      queryNextSpec sampleWorld sampleQR sampleResp =
        .ok (setCache sampleWorld (cacheKey [87] [85] [84]) sampleQueryAk,
          { afterIndex := 7, query := { data := true, afterIndex := 0 }
            done := false },
          [{ meta := sampleQueryMeta, data := [([100], [42])]
             signature := none }]) := by
  exact ⟨rfl, rfl⟩

theorem jsLess_irrefl : ∀ a : JStr, jsLess a a = false := by
  intro a
  induction a with
  | nil => rfl
  | cons c rest ih => simp [jsLess, ih]

theorem jsLess_asymm : ∀ a b : JStr, jsLess a b = true → jsLess b a = false := by
  intro a
  induction a with
  | nil => intro b h; cases b <;> simp [jsLess] at h ⊢
  | cons c rest ih =>
    intro b h
    cases b with
    | nil => simp [jsLess] at h
    | cons d bs =>
      simp only [jsLess] at h ⊢
      by_cases h1 : c < d
      · simp [h1, Nat.lt_asymm h1]
      · by_cases h2 : d < c
        · simp [h1, h2] at h
        · have : c = d := by omega
          subst this
          simp [h1, h2] at h ⊢
          exact ih bs h

theorem jsLess_eq_of_both_false : ∀ a b : JStr,
    jsLess a b = false → jsLess b a = false → a = b := by
  intro a
  induction a with
  | nil => intro b h1 h2; cases b <;> simp [jsLess] at h1 h2 ⊢
  | cons c rest ih =>
    intro b h1 h2
    cases b with
    | nil => simp [jsLess] at h2
    | cons d bs =>
      simp only [jsLess] at h1 h2
      by_cases hc : c < d
      · simp [hc] at h1
      · by_cases hd : d < c
        · simp [hd, Nat.lt_asymm hd] at h2
        · have : c = d := by omega
          subst this
          simp [hc] at h1 h2
          exact congrArg (c :: ·) (ih bs h1 h2)

theorem jsLess_le_trans : ∀ a b c : JStr,
    jsLess b a = false → jsLess c b = false → jsLess c a = false := by
  intro a
  induction a with
  | nil =>
    intro b c h1 h2
    cases c with
    | nil => rfl
    | cons z zs => rfl
  | cons x xs ih =>
    intro b c h1 h2
    cases b with
    | nil => simp [jsLess] at h1
    | cons y ys =>
      cases c with
      | nil => simp [jsLess] at h2
      | cons z zs =>
        simp only [jsLess] at h1 h2 ⊢
        by_cases hyx : y < x
        · simp [hyx] at h1
        · by_cases hzy : z < y
          · simp [hzy] at h2
          · by_cases hzx : z < x
            · omega
            · by_cases hxz : x < z
              · simp [hzx, hxz]
              · have hxy : ¬ x < y := by omega
                have hyz : ¬ y < z := by omega
                have hxeq : x = y := by omega
                have hyeq : y = z := by omega
                subst hxeq; subst hyeq
                simp_all
                exact ih ys zs h1 h2

theorem pRefl : ∀ fs : JFields, FPermP fs fs
  | .nil => .nil
  | .cons k v rest => .cons k v (pRefl rest)

theorem ins_perm (k : JStr) (v : JVal) :
    ∀ fs : JFields, FPermP (.cons k v fs) (insertField k v fs)
  | .nil => by simp only [insertField]; exact pRefl _
  | .cons k2 v2 rest => by
    by_cases h : jsLess k k2
    · simp only [insertField, h, if_true]
      exact pRefl _
    · simp only [insertField, h, if_false, Bool.false_eq_true]
      exact .trans (.swap k k2 v v2 rest) (.cons k2 v2 (ins_perm k v rest))

theorem sort_perm : ∀ fs : JFields, FPermP fs (sortFields fs)
  | .nil => .nil
  | .cons k v rest =>
    .trans (.cons k v (sort_perm rest)) (ins_perm k v (sortFields rest))

theorem FPermP_keys {a b : JFields} (h : FPermP a b) :
    (fieldKeys a).Perm (fieldKeys b) := by
  induction h with
  | nil => exact List.Perm.refl _
  | cons k v _ ih => exact List.Perm.cons _ ih
  | swap k1 k2 v1 v2 fs => exact List.Perm.swap _ _ _
  | trans _ _ ih1 ih2 => exact List.Perm.trans ih1 ih2

theorem nullFreeF_permP {a b : JFields} (h : FPermP a b) :
    nullFreeF a = nullFreeF b := by
  induction h with
  | nil => rfl
  | cons k v _ ih => simp [nullFreeF, ih]
  | swap k1 k2 v1 v2 fs =>
    simp only [nullFreeF]
    rw [← Bool.and_assoc, ← Bool.and_assoc, Bool.and_comm (nullFreeV v1)]
  | trans _ _ ih1 ih2 => rw [ih1, ih2]

theorem fieldKeys_insertField (k : JStr) (v : JVal) :
    ∀ fs : JFields, fieldKeys (insertField k v fs) = insertKey k (fieldKeys fs)
  | .nil => rfl
  | .cons k2 v2 rest => by
    by_cases h : jsLess k k2
    · simp [insertField, insertKey, fieldKeys, h]
    · simp [insertField, insertKey, fieldKeys, h, fieldKeys_insertField k v rest]

theorem fieldKeys_sortFields :
    ∀ fs : JFields, fieldKeys (sortFields fs) = sortKeys (fieldKeys fs)
  | .nil => rfl
  | .cons k v rest => by
    simp [sortFields, sortKeys, fieldKeys, fieldKeys_insertField,
      fieldKeys_sortFields rest]

theorem ins_sorted (k : JStr) (v : JVal) :
    ∀ fs : JFields, keysSortedF fs = true →
      keysSortedF (insertField k v fs) = true
  | .nil, _ => rfl
  | .cons k2 v2 rest, h => by
    by_cases hk : jsLess k k2
    · simp only [insertField, hk, if_true]
      simp only [keysSortedF, Bool.and_eq_true]
      exact ⟨by simp [jsLess_asymm _ _ hk], h⟩
    · simp only [insertField, hk, if_false, Bool.false_eq_true]
      cases rest with
      | nil =>
        simp only [insertField, keysSortedF, Bool.and_eq_true]
        exact ⟨by simp [hk], trivial⟩
      | cons k3 v3 rest2 =>
        simp only [keysSortedF, Bool.and_eq_true] at h
        obtain ⟨h23, hrest⟩ := h
        have ih := ins_sorted k v (.cons k3 v3 rest2) hrest
        by_cases hk3 : jsLess k k3
        · simp only [insertField, hk3, if_true] at ih ⊢
          simp only [keysSortedF, Bool.and_eq_true] at ih ⊢
          exact ⟨by simp [hk], ih⟩
        · simp only [insertField, hk3, if_false, Bool.false_eq_true] at ih ⊢
          simp only [keysSortedF, Bool.and_eq_true] at ih ⊢
          exact ⟨h23, ih⟩

theorem sort_sorted : ∀ fs : JFields, keysSortedF (sortFields fs) = true
  | .nil => rfl
  | .cons k v rest => ins_sorted k v (sortFields rest) (sort_sorted rest)

theorem jsLess_trans : ∀ a b c : JStr,
    jsLess a b = true → jsLess b c = true → jsLess a c = true := by
  intro a
  induction a with
  | nil =>
    intro b c h1 h2
    cases b with
    | nil => simp [jsLess] at h1
    | cons y ys =>
      cases c with
      | nil => simp [jsLess] at h2
      | cons z zs => rfl
  | cons x xs ih =>
    intro b c h1 h2
    cases b with
    | nil => simp [jsLess] at h1
    | cons y ys =>
      cases c with
      | nil => simp [jsLess] at h2
      | cons z zs =>
        simp only [jsLess] at h1 h2 ⊢
        by_cases hxy : x < y
        · by_cases hyz : y < z
          · have hxz : x < z := by omega
            simp [hxz]
          · by_cases hzy : z < y
            · simp [hyz, hzy] at h2
            · have : y = z := by omega
              subst this
              simp [hxy]
        · by_cases hyx : y < x
          · simp [hxy, hyx] at h1
          · have hxey : x = y := by omega
            subst hxey
            simp only [hxy, if_false, lt_irrefl] at h1
            by_cases hxz : x < z
            · simp [hxz]
            · by_cases hzx : z < x
              · simp [hxz, hzx] at h2
              · have hxez : x = z := by omega
                subst hxez
                simp only [hxz, if_false, lt_irrefl] at h2 ⊢
                exact ih ys zs h1 h2

theorem insert_comm_aux (k1 k2 : JStr) (v1 v2 : JVal)
    (h12 : jsLess k1 k2 = true) :
    ∀ s : JFields, insertField k1 v1 (insertField k2 v2 s) =
      insertField k2 v2 (insertField k1 v1 s)
  | .nil => by
    have h21 : jsLess k2 k1 = false := jsLess_asymm _ _ h12
    simp [insertField, h12, h21]
  | .cons k3 v3 rest => by
    have h21 : jsLess k2 k1 = false := jsLess_asymm _ _ h12
    by_cases h23 : jsLess k2 k3
    · have h13 : jsLess k1 k3 = true := jsLess_trans _ _ _ h12 h23
      simp [insertField, h12, h21, h23, h13]
    · by_cases h13 : jsLess k1 k3
      · simp [insertField, h12, h21, h23, h13]
      · simp only [insertField, h23, h13, if_false, Bool.false_eq_true]
        rw [insert_comm_aux k1 k2 v1 v2 h12 rest]

theorem insert_comm (k1 k2 : JStr) (v1 v2 : JVal) (hne : k1 ≠ k2)
    (s : JFields) : insertField k1 v1 (insertField k2 v2 s) =
      insertField k2 v2 (insertField k1 v1 s) := by
  by_cases h12 : jsLess k1 k2
  · exact insert_comm_aux k1 k2 v1 v2 h12 s
  · have h21 : jsLess k2 k1 = true := by
      cases hh : jsLess k2 k1 with
      | true => rfl
      | false =>
        exact absurd (jsLess_eq_of_both_false _ _ (by simpa using h12) hh) hne
    exact (insert_comm_aux k2 k1 v2 v1 h21 s).symm

theorem sortFields_eq_of_permP {a b : JFields} (h : FPermP a b)
    (hn : (fieldKeys a).Nodup) : sortFields a = sortFields b := by
  induction h with
  | nil => rfl
  | cons k v hrest ih =>
    simp only [sortFields]
    rw [ih (List.nodup_cons.mp (by simpa [fieldKeys] using hn)).2]
  | swap k1 k2 v1 v2 fs =>
    simp only [sortFields]
    have hne : k2 ≠ k1 := by
      simp only [fieldKeys, List.nodup_cons, List.mem_cons] at hn
      exact fun hh => hn.1 (Or.inl hh.symm)
    exact (insert_comm k2 k1 v2 v1 hne (sortFields fs)).symm
  | trans hab hbc ih1 ih2 =>
    rw [ih1 hn, ih2 (((FPermP_keys hab).nodup_iff).mp hn)]

theorem isOkE_map {ε α β : Type} (f : α → β) (e : Except ε α) :
    isOkE (e.map f) = isOkE e := by
  cases e <;> rfl

theorem error_unit_of_not_ok {α : Type} (e : Except Unit α)
    (h : isOkE e = false) : e = .error () := by
  cases e with
  | ok v => simp [isOkE] at h
  | error u => cases u; rfl

mutual
theorem procEntry_isOk : ∀ v : JVal, isOkE (procEntry v) = nullFreeV v
  | .jnull => rfl
  | .jbool _ => rfl
  | .jnum _ => rfl
  | .jstr _ => rfl
  | .jarr es => by
    simp only [procEntry, nullFreeV]
    rw [isOkE_map]
    exact procList_isOk 0 es
  | .jobj fs => by
    simp only [procEntry, nullFreeV]
    rw [isOkE_map]
    exact procFields_isOk fs
theorem procList_isOk : ∀ (i : Nat) (es : JList),
    isOkE (procList i es) = nullFreeL es
  | _, .nil => rfl
  | i, .cons v rest => by
    simp only [procList, nullFreeL]
    have h1 := procEntry_isOk v
    have h2 := procList_isOk (i + 1) rest
    cases hv : procEntry v with
    | error e => rw [hv] at h1; simp [isOkE] at h1; simp [hv, ← h1, isOkE]
    | ok v2 =>
      rw [hv] at h1
      simp only [isOkE] at h1
      cases hr : procList (i + 1) rest with
      | error e => rw [hr] at h2; simp [isOkE] at h2; simp [hv, hr, ← h1, ← h2, isOkE]
      | ok r2 => rw [hr] at h2; simp [isOkE] at h2; simp [hv, hr, ← h1, ← h2, isOkE]
theorem procFields_isOk : ∀ fs : JFields, isOkE (procFields fs) = nullFreeF fs
  | .nil => rfl
  | .cons k v rest => by
    simp only [procFields, nullFreeF]
    have h1 := procEntry_isOk v
    have h2 := procFields_isOk rest
    cases hv : procEntry v with
    | error e => rw [hv] at h1; simp [isOkE] at h1; simp [hv, ← h1, isOkE]
    | ok v2 =>
      rw [hv] at h1
      simp only [isOkE] at h1
      cases hr : procFields rest with
      | error e => rw [hr] at h2; simp [isOkE] at h2; simp [hv, hr, ← h1, ← h2, isOkE]
      | ok r2 => rw [hr] at h2; simp [isOkE] at h2; simp [hv, hr, ← h1, ← h2, isOkE]
end

theorem procFields_keys : ∀ (fs out : JFields), procFields fs = .ok out →
    fieldKeys out = fieldKeys fs
  | .nil, out, h => by
    cases h; rfl
  | .cons k v rest, out, h => by
    simp only [procFields] at h
    cases hv : procEntry v with
    | error e => rw [hv] at h; simp at h
    | ok v2 =>
      rw [hv] at h
      cases hr : procFields rest with
      | error e => rw [hr] at h; simp at h
      | ok r2 =>
        rw [hr] at h
        simp only [Except.ok.injEq] at h
        subst h
        simp [fieldKeys, procFields_keys rest r2 hr]

theorem FAligned_keys : ∀ (fs fs' : JFields), FAligned fs fs' →
    fieldKeys fs = fieldKeys fs'
  | .nil, _, h => by cases h; rfl
  | .cons k v rest, _, h => by
    cases h with
    | cons _ hv hrest => simp [fieldKeys, FAligned_keys rest _ hrest]

theorem procFields_permP_ok {a b : JFields} (h : FPermP a b) :
    ∀ pa, procFields a = .ok pa →
      ∃ pb, procFields b = .ok pb ∧ FPermP pa pb := by
  induction h with
  | nil =>
    intro pa hpa
    cases hpa
    exact ⟨.nil, rfl, .nil⟩
  | cons k v hrest ih =>
    rename_i fs fs'
    intro pa hpa
    simp only [procFields] at hpa
    cases hv : procEntry v with
    | error e => rw [hv] at hpa; simp at hpa
    | ok v2 =>
      rw [hv] at hpa
      cases hr : procFields fs with
      | error e => rw [hr] at hpa; simp at hpa
      | ok r2 =>
        rw [hr] at hpa
        simp only [Except.ok.injEq] at hpa
        subst hpa
        obtain ⟨pb, hpb, hperm⟩ := ih r2 hr
        exact ⟨.cons k v2 pb, by simp [procFields, hv, hpb], .cons k v2 hperm⟩
  | swap k1 k2 v1 v2 fs =>
    intro pa hpa
    simp only [procFields] at hpa
    cases hv1 : procEntry v1 with
    | error e => rw [hv1] at hpa; simp at hpa
    | ok a1 =>
      rw [hv1] at hpa
      cases hv2 : procEntry v2 with
      | error e => rw [hv2] at hpa; simp at hpa
      | ok a2 =>
        rw [hv2] at hpa
        cases hr : procFields fs with
        | error e => rw [hr] at hpa; simp at hpa
        | ok r2 =>
          rw [hr] at hpa
          simp only [Except.ok.injEq] at hpa
          subst hpa
          refine ⟨.cons k2 a2 (.cons k1 a1 r2), ?_, .swap k1 k2 a1 a2 r2⟩
          simp [procFields, hv1, hv2, hr]
  | trans hab hbc ih1 ih2 =>
    intro pa hpa
    obtain ⟨pb, hpb, hp1⟩ := ih1 pa hpa
    obtain ⟨pc, hpc, hp2⟩ := ih2 pb hpb
    exact ⟨pc, hpc, .trans hp1 hp2⟩

mutual
theorem invV : ∀ (v v' : JVal), VPermV v v' → wfV v = true →
    procEntry v = procEntry v'
  | .jnull, _, h, _ => by cases h; rfl
  | .jbool _, _, h, _ => by cases h; rfl
  | .jnum _, _, h, _ => by cases h; rfl
  | .jstr _, _, h, _ => by cases h; rfl
  | .jarr es, _, h, hwf => by
    cases h with
    | varr hal =>
      rename_i es'
      simp only [procEntry]
      rw [invL 0 es es' hal (by simpa [wfV] using hwf)]
  | .jobj fs, _, h, hwf => by
    cases h with
    | vobj halign hperm =>
      rename_i mid fs'
      simp only [procEntry]
      simp only [wfV, Bool.and_eq_true, decide_eq_true_eq] at hwf
      obtain ⟨hnd, hwfF⟩ := hwf
      rw [invF fs mid halign hwfF]
      cases hm : procFields mid with
      | error e =>
        cases e
        have h1 : nullFreeF mid = false := by
          have h0 := procFields_isOk mid
          rw [hm] at h0
          simpa [isOkE] using h0.symm
        have h2 : nullFreeF fs' = false := by
          rw [← nullFreeF_permP hperm]
          exact h1
        have h3 : procFields fs' = .error () := by
          apply error_unit_of_not_ok
          rw [procFields_isOk]
          exact h2
        rw [h3]
      | ok pm =>
        obtain ⟨pf', hpf', hpp⟩ := procFields_permP_ok hperm pm hm
        rw [hpf']
        have hkeys : fieldKeys pm = fieldKeys fs :=
          (procFields_keys mid pm hm).trans (FAligned_keys fs mid halign).symm
        have hnd2 : (fieldKeys pm).Nodup := by rw [hkeys]; exact hnd
        simp [Except.map, sortFields_eq_of_permP hpp hnd2]
theorem invL : ∀ (i : Nat) (es es' : JList), LAligned es es' → wfL es = true →
    procList i es = procList i es'
  | _, .nil, _, h, _ => by cases h; rfl
  | i, .cons v rest, _, h, hwf => by
    cases h with
    | cons hv hrest =>
      rename_i v' rest'
      simp only [wfL, Bool.and_eq_true] at hwf
      simp only [procList]
      rw [invV v v' hv hwf.1, invL (i + 1) rest rest' hrest hwf.2]
theorem invF : ∀ (fs fs' : JFields), FAligned fs fs' → wfF fs = true →
    procFields fs = procFields fs'
  | .nil, _, h, _ => by cases h; rfl
  | .cons k v rest, _, h, hwf => by
    cases h with
    | cons _ hv hrest =>
      rename_i v' rest'
      simp only [wfF, Bool.and_eq_true] at hwf
      simp only [procFields]
      rw [invV v v' hv hwf.1, invF rest rest' hrest hwf.2]
end

theorem natDigitsAux_eq : ∀ fuel1 fuel2 n : Nat, n ≤ fuel1 → n ≤ fuel2 →
    natDigitsAux fuel1 n = natDigitsAux fuel2 n := by
  intro fuel1
  induction fuel1 with
  | zero =>
    intro fuel2 n h1 h2
    interval_cases n
    cases fuel2 with
    | zero => rfl
    | succ g => simp [natDigitsAux]
  | succ f ih =>
    intro fuel2 n h1 h2
    by_cases hn : n < 10
    · cases fuel2 with
      | zero =>
        have : n = 0 := by omega
        subst this
        simp [natDigitsAux]
      | succ g => simp [natDigitsAux, hn]
    · cases fuel2 with
      | zero => omega
      | succ g =>
        simp only [natDigitsAux, hn, if_false]
        rw [ih g (n / 10) (by omega) (by omega)]

theorem natDigits_unfold (n : Nat) :
    natDigits n = if n < 10 then [48 + n] else natDigits (n / 10) ++ [48 + n % 10] := by
  by_cases hn : n < 10
  · cases n with
    | zero => simp [natDigits, natDigitsAux]
    | succ m => simp [natDigits, natDigitsAux, hn]
  · cases hcase : n with
    | zero => omega
    | succ m =>
      simp only [natDigits, natDigitsAux, hn, if_false, ← hcase]
      rw [natDigitsAux_eq m (n / 10) (n / 10) (by omega) (le_refl _)]

theorem natDigits_all_digits (n : Nat) : ∀ c ∈ natDigits n, isDig c = true := by
  induction n using Nat.strong_induction_on with
  | _ n ih =>
    rw [natDigits_unfold]
    by_cases hn : n < 10
    · simp [hn, isDig]
      omega
    · simp only [hn, if_false, List.mem_append, List.mem_singleton]
      intro c hc
      rcases hc with hc | hc
      · exact ih (n / 10) (by omega) c hc
      · subst hc
        simp [isDig]
        omega

theorem natDigits_ne_nil (n : Nat) : natDigits n ≠ [] := by
  rw [natDigits_unfold]
  by_cases hn : n < 10 <;> simp [hn]

theorem evalD_append (l : JStr) (c : Nat) :
    evalD (l ++ [c]) = 10 * evalD l + (c - 48) := by
  simp [evalD, List.foldl_append]

theorem evalD_natDigits (n : Nat) : evalD (natDigits n) = n := by
  induction n using Nat.strong_induction_on with
  | _ n ih =>
    rw [natDigits_unfold]
    by_cases hn : n < 10
    · simp [hn, evalD]
    · simp only [hn, if_false]
      rw [evalD_append, ih (n / 10) (by omega)]
      omega

theorem natDigits_inj {a b : Nat} (h : natDigits a = natDigits b) : a = b := by
  have := evalD_natDigits a
  rw [h, evalD_natDigits] at this
  exact this.symm

theorem munch_take (f : Nat → Bool) : ∀ (p s : JStr),
    (∀ c ∈ p, f c = true) → (∀ c0 rest0, s = c0 :: rest0 → f c0 = false) →
      (p ++ s).takeWhile f = p ∧ (p ++ s).dropWhile f = s := by
  intro p
  induction p with
  | nil =>
    intro s hp hs
    cases s with
    | nil => simp
    | cons c0 rest0 =>
      simp [List.takeWhile, List.dropWhile, hs c0 rest0 rfl]
  | cons c p' ih =>
    intro s hp hs
    have hc : f c = true := hp c (by simp)
    have := ih s (fun d hd => hp d (by simp [hd])) hs
    simp [List.takeWhile, List.dropWhile, hc, this.1, this.2]

theorem noDigitHead_false_head (s : JStr) (h : noDigitHead s = true) :
    ∀ c0 rest0, s = c0 :: rest0 → isDig c0 = false := by
  intro c0 rest0 hs
  subst hs
  simp [noDigitHead] at h
  simp [isDig]
  omega

theorem natDigits_munch {a b : Nat} {s s' : JStr}
    (h : natDigits a ++ s = natDigits b ++ s')
    (hs : noDigitHead s = true) (hs' : noDigitHead s' = true) :
    a = b ∧ s = s' := by
  have h1 := munch_take isDig (natDigits a) s (natDigits_all_digits a)
    (noDigitHead_false_head s hs)
  have h2 := munch_take isDig (natDigits b) s' (natDigits_all_digits b)
    (noDigitHead_false_head s' hs')
  rw [h] at h1
  have hd : natDigits a = natDigits b := by rw [← h1.1, h2.1]
  refine ⟨natDigits_inj hd, ?_⟩
  rw [← h1.2, h2.2]

theorem intRender_munch {n n' : Int} {s s' : JStr}
    (h : intRender n ++ s = intRender n' ++ s')
    (hs : noDigitHead s = true) (hs' : noDigitHead s' = true) :
    n = n' ∧ s = s' := by
  have hd45 : ∀ m : Int, ∀ c ∈ natDigits m.toNat, c ≠ 45 := by
    intro m c hc
    have := natDigits_all_digits m.toNat c hc
    simp [isDig] at this
    omega
  unfold intRender at h
  by_cases hn : n < 0
  · by_cases hn' : n' < 0
    · simp only [hn, hn', if_true] at h
      simp only [List.cons_append, List.cons.injEq] at h
      obtain ⟨hab, hss⟩ := natDigits_munch h.2 hs hs'
      refine ⟨by omega, hss⟩
    · simp only [hn, hn', if_true, if_false] at h
      cases hnd : natDigits n'.toNat with
      | nil => exact absurd hnd (natDigits_ne_nil _)
      | cons c0 r0 =>
        rw [hnd] at h
        simp only [List.cons_append, List.cons.injEq] at h
        exact absurd h.1.symm (hd45 n' c0 (by simp [hnd]))
  · by_cases hn' : n' < 0
    · simp only [hn, hn', if_true, if_false] at h
      cases hnd : natDigits n.toNat with
      | nil => exact absurd hnd (natDigits_ne_nil _)
      | cons c0 r0 =>
        rw [hnd] at h
        simp only [List.cons_append, List.cons.injEq] at h
        exact absurd h.1 (hd45 n c0 (by simp [hnd]))
    · simp only [hn, hn', if_false] at h
      obtain ⟨hab, hss⟩ := natDigits_munch h hs hs'
      refine ⟨by omega, hss⟩

theorem unhex_hexDigit (n : Nat) (h : n < 16) : unhex (hexDigit n) = n := by
  unfold unhex hexDigit
  by_cases h10 : n < 10 <;> simp [h10] <;> omega

theorem unhex4_hex4 (c : Nat) (h : c < 65536) :
    unhex4 (hexDigit (c / 4096 % 16)) (hexDigit (c / 256 % 16))
      (hexDigit (c / 16 % 16)) (hexDigit (c % 16)) = c := by
  unfold unhex4
  rw [unhex_hexDigit _ (Nat.mod_lt _ (by omega)),
    unhex_hexDigit _ (Nat.mod_lt _ (by omega)),
    unhex_hexDigit _ (Nat.mod_lt _ (by omega)),
    unhex_hexDigit _ (Nat.mod_lt _ (by omega))]
  omega


theorem descape_quote (l : JStr) : descape (34 :: l) = some ([], l) := rfl

theorem descape_slash (e : Nat) (l : JStr) (he : e ≠ 117) :
    descape (92 :: e :: l) =
      (descape l).map (fun p => (unescSimple e :: p.1, p.2)) := by
  rw [descape.eq_def]
  simp [he]

theorem descape_u (h1 h2 h3 h4 : Nat) (l : JStr) :
    descape (92 :: 117 :: h1 :: h2 :: h3 :: h4 :: l) =
      (descape l).map (fun p => (unhex4 h1 h2 h3 h4 :: p.1, p.2)) := rfl

theorem descape_other (c : Nat) (l : JStr) (h34 : c ≠ 34) (h92 : c ≠ 92) :
    descape (c :: l) = (descape l).map (fun p => (c :: p.1, p.2)) := by
  rw [descape.eq_def]
  split
  · simp_all
  · simp_all
  · simp_all
  · rename_i c2 l2 h
    simp_all

theorem descape_escape : ∀ (x s : JStr),
    descape (escapeStr x ++ 34 :: s) = some (x, s)
  | [], s => by simp [escapeStr, descape_quote]
  | c :: rest, s => by
    by_cases h34 : c = 34
    · subst h34
      rw [escapeStr.eq_def]
      simp [descape_slash, unescSimple, descape_escape rest s]
    · by_cases h92 : c = 92
      · subst h92
        rw [escapeStr.eq_def]
        simp [descape_slash, unescSimple, descape_escape rest s]
      · by_cases h8 : c = 8
        · subst h8
          rw [escapeStr.eq_def]
          simp [descape_slash, unescSimple, descape_escape rest s]
        · by_cases h9 : c = 9
          · subst h9
            rw [escapeStr.eq_def]
            simp [descape_slash, unescSimple, descape_escape rest s]
          · by_cases h10 : c = 10
            · subst h10
              rw [escapeStr.eq_def]
              simp [descape_slash, unescSimple, descape_escape rest s]
            · by_cases h12 : c = 12
              · subst h12
                rw [escapeStr.eq_def]
                simp [descape_slash, unescSimple, descape_escape rest s]
              · by_cases h13 : c = 13
                · subst h13
                  rw [escapeStr.eq_def]
                  simp [descape_slash, unescSimple, descape_escape rest s]
                · by_cases hctl : c < 32
                  · rw [escapeStr.eq_def]
                    simp [h34, h92, h8, h9, h10, h12, h13, hctl, hex4,
                      descape_u, descape_escape rest s, unhex4_hex4 c (by omega)]
                  · by_cases hhi : isHighSur c
                    · have hbig : 55296 ≤ c ∧ c ≤ 56319 := by
                        simpa [isHighSur] using hhi
                      cases rest with
                      | nil =>
                        rw [escapeStr.eq_def]
                        simp [h34, h92, h8, h9, h10, h12, h13, hctl, hhi, hex4,
                          descape_u, descape_quote, unhex4_hex4 c (by omega)]
                      | cons d rest2 =>
                        by_cases hlo : isLowSur d
                        · have hd : 56320 ≤ d ∧ d ≤ 57343 := by
                            simpa [isLowSur] using hlo
                          have hc34 : c ≠ 34 := by omega
                          have hc92 : c ≠ 92 := by omega
                          have hd34 : d ≠ 34 := by omega
                          have hd92 : d ≠ 92 := by omega
                          rw [escapeStr.eq_def]
                          simp [h34, h92, h8, h9, h10, h12, h13, hctl, hhi, hlo,
                            descape_other, hc34, hc92, hd34, hd92,
                            descape_escape rest2 s]
                        · rw [escapeStr.eq_def]
                          have hrt := descape_escape (d :: rest2) s
                          simp [h34, h92, h8, h9, h10, h12, h13, hctl, hhi, hlo,
                            hex4, descape_u, hrt, unhex4_hex4 c (by omega)]
                    · by_cases hlo : isLowSur c
                      · have hbig : 56320 ≤ c ∧ c ≤ 57343 := by
                          simpa [isLowSur] using hlo
                        rw [escapeStr.eq_def]
                        simp [h34, h92, h8, h9, h10, h12, h13, hctl, hhi, hlo,
                          hex4, descape_u, descape_escape rest s,
                          unhex4_hex4 c (by omega)]
                      · rw [escapeStr.eq_def]
                        simp [h34, h92, h8, h9, h10, h12, h13, hctl, hhi, hlo,
                          descape_other, descape_escape rest s]

theorem escapeStr_inj {x x' s s' : JStr}
    (h : escapeStr x ++ 34 :: s = escapeStr x' ++ 34 :: s') :
    x = x' ∧ s = s' := by
  have h1 := descape_escape x s
  rw [h, descape_escape] at h1
  simpa using h1.symm

theorem FPermP_symm {a b : JFields} (h : FPermP a b) : FPermP b a := by
  induction h with
  | nil => exact .nil
  | cons k v _ ih => exact .cons k v ih
  | swap k1 k2 v1 v2 fs => exact .swap k2 k1 v2 v1 fs
  | trans _ _ ih1 ih2 => exact .trans ih2 ih1

theorem fLookup_none_of_not_mem (k : JStr) :
    ∀ fs : JFields, k ∉ fieldKeys fs → fLookup k fs = none
  | .nil, _ => rfl
  | .cons k2 v rest, h => by
    simp only [fieldKeys, List.mem_cons] at h
    push_neg at h
    simp [fLookup, h.1, fLookup_none_of_not_mem k rest h.2]

theorem fLookup_permP {a b : JFields} (h : FPermP a b) :
    (fieldKeys a).Nodup → ∀ k, fLookup k a = fLookup k b := by
  induction h with
  | nil => intro _ _; rfl
  | cons k2 v _ ih =>
    intro hnd k
    simp only [fieldKeys, List.nodup_cons] at hnd
    by_cases hk : k = k2
    · simp [fLookup, hk]
    · simp [fLookup, hk, ih hnd.2 k]
  | swap k1 k2 v1 v2 fs =>
    intro hnd k
    simp only [fieldKeys, List.nodup_cons, List.mem_cons] at hnd
    push_neg at hnd
    by_cases h1 : k = k1
    · have h2 : ¬k = k2 := by
        intro h2
        exact hnd.1.1 (h1.symm.trans h2)
      simp [fLookup, h1, h2, hnd.1.1]
    · by_cases h2 : k = k2
      · simp [fLookup, h1, h2, Ne.symm hnd.1.1]
      · simp [fLookup, h1, h2]
  | trans hab _ ih1 ih2 =>
    intro hnd k
    rw [ih1 hnd k, ih2 ((FPermP_keys hab).nodup_iff.mp hnd) k]

theorem fields_eq_of_lookup : ∀ (a b : JFields), fieldKeys a = fieldKeys b →
    (fieldKeys a).Nodup → (∀ k, fLookup k a = fLookup k b) → a = b
  | .nil, .nil, _, _, _ => rfl
  | .nil, .cons _ _ _, hk, _, _ => by simp [fieldKeys] at hk
  | .cons _ _ _, .nil, hk, _, _ => by simp [fieldKeys] at hk
  | .cons k v rest, .cons k2 v2 rest2, hk, hnd, hl => by
    simp only [fieldKeys, List.cons.injEq] at hk
    obtain ⟨hkk, hrest⟩ := hk
    subst hkk
    simp only [fieldKeys, List.nodup_cons] at hnd
    have hv := hl k
    simp [fLookup] at hv
    have htl : ∀ k3, fLookup k3 rest = fLookup k3 rest2 := by
      intro k3
      by_cases h3 : k3 = k
      · subst h3
        rw [fLookup_none_of_not_mem k3 rest hnd.1,
          fLookup_none_of_not_mem k3 rest2 (hrest ▸ hnd.1)]
      · have h4 := hl k3
        simpa [fLookup, h3] using h4
    rw [hv, fields_eq_of_lookup rest rest2 hrest hnd.2 htl]

theorem sortFields_inj_of_keys {a b : JFields} (hk : fieldKeys a = fieldKeys b)
    (hnd : (fieldKeys a).Nodup) (h : sortFields a = sortFields b) : a = b := by
  have hab : FPermP a b := by
    refine .trans (sort_perm a) ?_
    rw [h]
    exact FPermP_symm (sort_perm b)
  exact fields_eq_of_lookup a b hk hnd (fLookup_permP hab hnd)

theorem ShapeF_keys : ∀ (a b : JFields), ShapeF a b → fieldKeys a = fieldKeys b
  | .nil, _, h => by cases h; rfl
  | .cons k v rest, _, h => by
    cases h with
    | cons _ hv hrest => simp [fieldKeys, ShapeF_keys rest _ hrest]

theorem insert_shape (k : JStr) {v v' : JVal} (hv : ShapeV v v') :
    ∀ (a b : JFields), ShapeF a b →
      ShapeF (insertField k v a) (insertField k v' b)
  | .nil, _, h => by cases h; exact .cons k hv .nil
  | .cons k2 v2 rest, _, h => by
    cases h with
    | cons _ hv2 hrest =>
      rename_i v2' rest'
      by_cases hlt : jsLess k k2
      · simp only [insertField, hlt, if_true]
        exact .cons k hv (.cons k2 hv2 hrest)
      · simp only [insertField, hlt, if_false, Bool.false_eq_true]
        exact .cons k2 hv2 (insert_shape k hv rest rest' hrest)

theorem sort_shape : ∀ (a b : JFields), ShapeF a b →
    ShapeF (sortFields a) (sortFields b)
  | .nil, _, h => by cases h; exact .nil
  | .cons k v rest, _, h => by
    cases h with
    | cons _ hv hrest =>
      rename_i v' rest'
      show ShapeF (insertField k v (sortFields rest))
        (insertField k v' (sortFields rest'))
      exact insert_shape k hv _ _ (sort_shape rest rest' hrest)

mutual
theorem procV_shape : ∀ (v v' : JVal), ShapeV v v' → ∀ w w',
    procEntry v = .ok w → procEntry v' = .ok w' → ShapeV w w'
  | .jnull, _, h, w, w', hw, _ => by cases h; simp [procEntry] at hw
  | .jbool b, _, h, w, w', hw, hw' => by
    cases h with
    | sbool _ b' =>
      simp only [procEntry, Except.ok.injEq] at hw hw'
      subst hw
      subst hw'
      exact .sbool b b'
  | .jnum n, _, h, w, w', hw, hw' => by
    cases h with
    | snum _ n' =>
      simp only [procEntry, Except.ok.injEq] at hw hw'
      subst hw
      subst hw'
      exact .snum n n'
  | .jstr s, _, h, w, w', hw, hw' => by
    cases h with
    | sstr _ s' =>
      simp only [procEntry, Except.ok.injEq] at hw hw'
      subst hw
      subst hw'
      exact .sstr s s'
  | .jarr es, _, h, w, w', hw, hw' => by
    cases h with
    | sarr hes =>
      rename_i es'
      simp only [procEntry] at hw hw'
      cases hpl : procList 0 es with
      | error e => rw [hpl] at hw; simp [Except.map] at hw
      | ok pf =>
        rw [hpl] at hw
        cases hpl2 : procList 0 es' with
        | error e => rw [hpl2] at hw'; simp [Except.map] at hw'
        | ok pf2 =>
          rw [hpl2] at hw'
          simp only [Except.map, Except.ok.injEq] at hw hw'
          subst hw
          subst hw'
          exact .sobj
            (sort_shape pf pf2 (procL_shape 0 es es' hes pf pf2 hpl hpl2))
  | .jobj fs, _, h, w, w', hw, hw' => by
    cases h with
    | sobj hfs =>
      rename_i fs'
      simp only [procEntry] at hw hw'
      cases hpf : procFields fs with
      | error e => rw [hpf] at hw; simp [Except.map] at hw
      | ok pf =>
        rw [hpf] at hw
        cases hpf2 : procFields fs' with
        | error e => rw [hpf2] at hw'; simp [Except.map] at hw'
        | ok pf2 =>
          rw [hpf2] at hw'
          simp only [Except.map, Except.ok.injEq] at hw hw'
          subst hw
          subst hw'
          exact .sobj
            (sort_shape pf pf2 (procF_shape fs fs' hfs pf pf2 hpf hpf2))
theorem procL_shape : ∀ (i : Nat) (es es' : JList), ShapeL es es' → ∀ pf pf',
    procList i es = .ok pf → procList i es' = .ok pf' → ShapeF pf pf'
  | _, .nil, _, h, pf, pf', hp, hp' => by
    cases h
    cases hp
    cases hp'
    exact .nil
  | i, .cons v rest, _, h, pf, pf', hp, hp' => by
    cases h with
    | cons hv hrest =>
      rename_i v' rest'
      simp only [procList] at hp hp'
      cases he : procEntry v with
      | error e => rw [he] at hp; simp at hp
      | ok w =>
        rw [he] at hp
        cases hr : procList (i + 1) rest with
        | error e => rw [hr] at hp; simp at hp
        | ok r2 =>
          rw [hr] at hp
          simp only [Except.ok.injEq] at hp
          subst hp
          cases he2 : procEntry v' with
          | error e => rw [he2] at hp'; simp at hp'
          | ok w2 =>
            rw [he2] at hp'
            cases hr2 : procList (i + 1) rest' with
            | error e => rw [hr2] at hp'; simp at hp'
            | ok r3 =>
              rw [hr2] at hp'
              simp only [Except.ok.injEq] at hp'
              subst hp'
              exact .cons (natDigits i) (procV_shape v v' hv w w2 he he2)
                (procL_shape (i + 1) rest rest' hrest r2 r3 hr hr2)
theorem procF_shape : ∀ (fs fs' : JFields), ShapeF fs fs' → ∀ pf pf',
    procFields fs = .ok pf → procFields fs' = .ok pf' → ShapeF pf pf'
  | .nil, _, h, pf, pf', hp, hp' => by
    cases h
    cases hp
    cases hp'
    exact .nil
  | .cons k v rest, _, h, pf, pf', hp, hp' => by
    cases h with
    | cons _ hv hrest =>
      rename_i v' rest'
      simp only [procFields] at hp hp'
      cases he : procEntry v with
      | error e => rw [he] at hp; simp at hp
      | ok w =>
        rw [he] at hp
        cases hr : procFields rest with
        | error e => rw [hr] at hp; simp at hp
        | ok r2 =>
          rw [hr] at hp
          simp only [Except.ok.injEq] at hp
          subst hp
          cases he2 : procEntry v' with
          | error e => rw [he2] at hp'; simp at hp'
          | ok w2 =>
            rw [he2] at hp'
            cases hr2 : procFields rest' with
            | error e => rw [hr2] at hp'; simp at hp'
            | ok r3 =>
              rw [hr2] at hp'
              simp only [Except.ok.injEq] at hp'
              subst hp'
              exact .cons k (procV_shape v v' hv w w2 he he2)
                (procF_shape rest rest' hrest r2 r3 hr hr2)
end

theorem procList_keys : ∀ (i : Nat) (es : JList) (out : JFields),
    procList i es = .ok out → fieldKeys out = idxKeys i es
  | _, .nil, out, h => by cases h; rfl
  | i, .cons v rest, out, h => by
    simp only [procList] at h
    cases he : procEntry v with
    | error e => rw [he] at h; simp at h
    | ok w =>
      rw [he] at h
      cases hr : procList (i + 1) rest with
      | error e => rw [hr] at h; simp at h
      | ok r2 =>
        rw [hr] at h
        simp only [Except.ok.injEq] at h
        subst h
        simp [fieldKeys, idxKeys, procList_keys (i + 1) rest r2 hr]

theorem ShapeL_idxKeys : ∀ (es es' : JList), ShapeL es es' →
    ∀ i, idxKeys i es = idxKeys i es'
  | .nil, _, h => by cases h; intro _; rfl
  | .cons v rest, _, h => by
    cases h with
    | cons hv hrest =>
      rename_i v' rest'
      intro i
      simp [idxKeys, ShapeL_idxKeys rest rest' hrest (i + 1)]

theorem idxKeys_mem : ∀ (i : Nat) (es : JList) (k : JStr),
    k ∈ idxKeys i es → ∃ j, i ≤ j ∧ k = natDigits j
  | _, .nil, k, h => by simp [idxKeys] at h
  | i, .cons v rest, k, h => by
    simp only [idxKeys, List.mem_cons] at h
    cases h with
    | inl h => exact ⟨i, le_refl i, h⟩
    | inr h =>
      obtain ⟨j, hj, hk⟩ := idxKeys_mem (i + 1) rest k h
      exact ⟨j, by omega, hk⟩

theorem idxKeys_nodup : ∀ (i : Nat) (es : JList), (idxKeys i es).Nodup
  | _, .nil => List.nodup_nil
  | i, .cons v rest => by
    simp only [idxKeys, List.nodup_cons]
    refine ⟨?_, idxKeys_nodup (i + 1) rest⟩
    intro hmem
    obtain ⟨j, hj, hk⟩ := idxKeys_mem (i + 1) rest _ hmem
    have := natDigits_inj hk
    omega

mutual
theorem procV_inj : ∀ (v v' : JVal), ShapeV v v' → wfV v = true → ∀ w,
    procEntry v = .ok w → procEntry v' = .ok w → v = v'
  | .jnull, _, _, _, w, hw, _ => by simp [procEntry] at hw
  | .jbool b, _, h, _, w, hw, hw' => by
    cases h with
    | sbool _ b' =>
      simp only [procEntry, Except.ok.injEq] at hw hw'
      subst hw
      simp only [JVal.jbool.injEq] at hw'
      rw [hw']
  | .jnum n, _, h, _, w, hw, hw' => by
    cases h with
    | snum _ n' =>
      simp only [procEntry, Except.ok.injEq] at hw hw'
      subst hw
      simp only [JVal.jnum.injEq] at hw'
      rw [hw']
  | .jstr s, _, h, _, w, hw, hw' => by
    cases h with
    | sstr _ s' =>
      simp only [procEntry, Except.ok.injEq] at hw hw'
      subst hw
      simp only [JVal.jstr.injEq] at hw'
      rw [hw']
  | .jarr es, _, h, hwf, w, hw, hw' => by
    cases h with
    | sarr hes =>
      rename_i es'
      simp only [procEntry] at hw hw'
      cases hpl : procList 0 es with
      | error e => rw [hpl] at hw; simp [Except.map] at hw
      | ok pf =>
        rw [hpl] at hw
        cases hpl2 : procList 0 es' with
        | error e => rw [hpl2] at hw'; simp [Except.map] at hw'
        | ok pf2 =>
          rw [hpl2] at hw'
          simp only [Except.map, Except.ok.injEq] at hw hw'
          subst hw
          simp only [JVal.jobj.injEq] at hw'
          have hk : fieldKeys pf2 = fieldKeys pf := by
            rw [procList_keys 0 es pf hpl, procList_keys 0 es' pf2 hpl2]
            exact (ShapeL_idxKeys es es' hes 0).symm
          have hnd : (fieldKeys pf2).Nodup := by
            rw [procList_keys 0 es' pf2 hpl2]
            exact idxKeys_nodup 0 es'
          have hpp : pf2 = pf := sortFields_inj_of_keys hk hnd hw'
          subst hpp
          rw [procL_inj 0 es es' hes (by simpa [wfV] using hwf) pf2 hpl hpl2]
  | .jobj fs, _, h, hwf, w, hw, hw' => by
    cases h with
    | sobj hfs =>
      rename_i fs'
      simp only [procEntry] at hw hw'
      simp only [wfV, Bool.and_eq_true, decide_eq_true_eq] at hwf
      cases hpf : procFields fs with
      | error e => rw [hpf] at hw; simp [Except.map] at hw
      | ok pf =>
        rw [hpf] at hw
        cases hpf2 : procFields fs' with
        | error e => rw [hpf2] at hw'; simp [Except.map] at hw'
        | ok pf2 =>
          rw [hpf2] at hw'
          simp only [Except.map, Except.ok.injEq] at hw hw'
          subst hw
          simp only [JVal.jobj.injEq] at hw'
          have hk : fieldKeys pf2 = fieldKeys pf := by
            rw [procFields_keys fs pf hpf, procFields_keys fs' pf2 hpf2]
            exact (ShapeF_keys fs fs' hfs).symm
          have hnd : (fieldKeys pf2).Nodup := by
            rw [procFields_keys fs' pf2 hpf2, ← ShapeF_keys fs fs' hfs]
            exact hwf.1
          have hpp : pf2 = pf := sortFields_inj_of_keys hk hnd hw'
          subst hpp
          rw [procF_inj fs fs' hfs hwf.2 pf2 hpf hpf2]
theorem procL_inj : ∀ (i : Nat) (es es' : JList), ShapeL es es' →
    wfL es = true → ∀ pf, procList i es = .ok pf →
      procList i es' = .ok pf → es = es'
  | _, .nil, _, h, _, _, _, _ => by cases h; rfl
  | i, .cons v rest, _, h, hwf, pf, hp, hp' => by
    cases h with
    | cons hv hrest =>
      rename_i v' rest'
      simp only [wfL, Bool.and_eq_true] at hwf
      simp only [procList] at hp hp'
      cases he : procEntry v with
      | error e => rw [he] at hp; simp at hp
      | ok w =>
        rw [he] at hp
        cases hr : procList (i + 1) rest with
        | error e => rw [hr] at hp; simp at hp
        | ok r2 =>
          rw [hr] at hp
          simp only [Except.ok.injEq] at hp
          subst hp
          cases he2 : procEntry v' with
          | error e => rw [he2] at hp'; simp at hp'
          | ok w2 =>
            rw [he2] at hp'
            cases hr2 : procList (i + 1) rest' with
            | error e => rw [hr2] at hp'; simp at hp'
            | ok r3 =>
              rw [hr2] at hp'
              simp only [Except.ok.injEq, JFields.cons.injEq] at hp'
              obtain ⟨_, hww, hrr⟩ := hp'
              rw [hww] at he2
              rw [hrr] at hr2
              rw [procV_inj v v' hv hwf.1 w he he2,
                procL_inj (i + 1) rest rest' hrest hwf.2 r2 hr hr2]
theorem procF_inj : ∀ (fs fs' : JFields), ShapeF fs fs' →
    wfF fs = true → ∀ pf, procFields fs = .ok pf →
      procFields fs' = .ok pf → fs = fs'
  | .nil, _, h, _, _, _, _ => by cases h; rfl
  | .cons k v rest, _, h, hwf, pf, hp, hp' => by
    cases h with
    | cons _ hv hrest =>
      rename_i v' rest'
      simp only [wfF, Bool.and_eq_true] at hwf
      simp only [procFields] at hp hp'
      cases he : procEntry v with
      | error e => rw [he] at hp; simp at hp
      | ok w =>
        rw [he] at hp
        cases hr : procFields rest with
        | error e => rw [hr] at hp; simp at hp
        | ok r2 =>
          rw [hr] at hp
          simp only [Except.ok.injEq] at hp
          subst hp
          cases he2 : procEntry v' with
          | error e => rw [he2] at hp'; simp at hp'
          | ok w2 =>
            rw [he2] at hp'
            cases hr2 : procFields rest' with
            | error e => rw [hr2] at hp'; simp at hp'
            | ok r3 =>
              rw [hr2] at hp'
              simp only [Except.ok.injEq, JFields.cons.injEq] at hp'
              obtain ⟨_, hww, hrr⟩ := hp'
              rw [hww] at he2
              rw [hrr] at hr2
              rw [procV_inj v v' hv hwf.1 w he he2,
                procF_inj rest rest' hrest hwf.2 r2 hr hr2]
end

mutual
theorem rendV_inj : ∀ (v v' : JVal), ShapeV v v' → ∀ (t t' : JStr),
    noDigitHead t = true → noDigitHead t' = true →
    renderVal v ++ t = renderVal v' ++ t' → v = v' ∧ t = t'
  | .jnull, _, h, t, t', _, _, h3 => by
    cases h
    simp only [renderVal, List.cons_append, List.nil_append,
      List.cons.injEq] at h3
    exact ⟨rfl, h3.2.2.2.2⟩
  | .jbool b, _, h, t, t', _, _, h3 => by
    cases h with
    | sbool _ b' =>
      cases b <;> cases b'
      · simp [renderVal] at h3
        exact ⟨rfl, h3⟩
      · simp [renderVal] at h3
      · simp [renderVal] at h3
      · simp [renderVal] at h3
        exact ⟨rfl, h3⟩
  | .jnum n, _, h, t, t', ht, ht', h3 => by
    cases h with
    | snum _ n' =>
      simp only [renderVal] at h3
      obtain ⟨hn, hts⟩ := intRender_munch h3 ht ht'
      exact ⟨by rw [hn], hts⟩
  | .jstr s, _, h, t, t', _, _, h3 => by
    cases h with
    | sstr _ s' =>
      simp only [renderVal, renderStr, List.cons_append, List.append_assoc,
        List.cons.injEq, List.nil_append] at h3
      obtain ⟨hss, hts⟩ := escapeStr_inj h3.2
      exact ⟨by rw [hss], hts⟩
  | .jarr es, _, h, t, t', _, _, h3 => by
    cases h with
    | sarr hes =>
      rename_i es'
      simp only [renderVal, List.cons_append, List.append_assoc,
        List.cons.injEq, List.nil_append] at h3
      obtain ⟨hee, hts⟩ := rendL_inj es es' hes t t' h3.2
      exact ⟨by rw [hee], hts⟩
  | .jobj fs, _, h, t, t', _, _, h3 => by
    cases h with
    | sobj hfs =>
      rename_i fs'
      simp only [renderVal, List.cons_append, List.append_assoc,
        List.cons.injEq, List.nil_append] at h3
      obtain ⟨hff, hts⟩ := rendF_inj fs fs' hfs t t' h3.2
      exact ⟨by rw [hff], hts⟩
theorem rendL_inj : ∀ (es es' : JList), ShapeL es es' → ∀ (t t' : JStr),
    renderList es ++ 93 :: t = renderList es' ++ 93 :: t' →
      es = es' ∧ t = t'
  | .nil, _, h, t, t', h3 => by
    cases h
    simp only [renderList, List.nil_append, List.cons.injEq] at h3
    exact ⟨rfl, h3.2⟩
  | .cons v .nil, _, h, t, t', h3 => by
    cases h with
    | cons hv hrest =>
      cases hrest
      simp only [renderList] at h3
      obtain ⟨hvv, hts⟩ := rendV_inj v _ hv (93 :: t) (93 :: t') rfl rfl h3
      simp only [List.cons.injEq] at hts
      rw [hvv, hts.2]
      exact ⟨rfl, rfl⟩
  | .cons v (.cons v2 rest2), _, h, t, t', h3 => by
    cases h with
    | cons hv hrest =>
      rename_i v' rest'
      cases hrest with
      | cons hv2 hrest2 =>
        rename_i v2' rest2'
        simp only [renderList, List.append_assoc, List.cons_append] at h3
        obtain ⟨hvv, hts⟩ := rendV_inj v v' hv
          (44 :: (renderList (.cons v2 rest2) ++ 93 :: t))
          (44 :: (renderList (.cons v2' rest2') ++ 93 :: t')) rfl rfl h3
        simp only [List.cons.injEq] at hts
        obtain ⟨hee, htt⟩ := rendL_inj (.cons v2 rest2) (.cons v2' rest2')
          (.cons hv2 hrest2) t t' hts.2
        rw [hvv, hee, htt]
        exact ⟨rfl, rfl⟩
theorem rendF_inj : ∀ (fs fs' : JFields), ShapeF fs fs' → ∀ (t t' : JStr),
    renderFields fs ++ 125 :: t = renderFields fs' ++ 125 :: t' →
      fs = fs' ∧ t = t'
  | .nil, _, h, t, t', h3 => by
    cases h
    simp only [renderFields, List.nil_append, List.cons.injEq] at h3
    exact ⟨rfl, h3.2⟩
  | .cons k v .nil, _, h, t, t', h3 => by
    cases h with
    | cons _ hv hrest =>
      cases hrest
      rename_i v'
      simp only [renderFields, List.append_assoc, List.cons_append] at h3
      have h4 := List.append_cancel_left h3
      simp only [List.cons.injEq] at h4
      obtain ⟨hvv, hts⟩ := rendV_inj v v' hv (125 :: t) (125 :: t') rfl rfl
        h4.2
      simp only [List.cons.injEq] at hts
      rw [hvv, hts.2]
      exact ⟨rfl, rfl⟩
  | .cons k v (.cons k2 v2 rest2), _, h, t, t', h3 => by
    cases h with
    | cons _ hv hrest =>
      rename_i v' rest'
      cases hrest with
      | cons _ hv2 hrest2 =>
        rename_i v2' rest2'
        simp only [renderFields, List.append_assoc, List.cons_append] at h3
        have h4 := List.append_cancel_left h3
        simp only [List.cons.injEq] at h4
        obtain ⟨hvv, hts⟩ := rendV_inj v v' hv
          (44 :: (renderFields (.cons k2 v2 rest2) ++ 125 :: t))
          (44 :: (renderFields (.cons k2 v2' rest2') ++ 125 :: t')) rfl rfl
          h4.2
        simp only [List.cons.injEq] at hts
        obtain ⟨hff, htt⟩ := rendF_inj (.cons k2 v2 rest2)
          (.cons k2 v2' rest2') (.cons k2 hv2 hrest2) t t' hts.2
        rw [hvv, hff, htt]
        exact ⟨rfl, rfl⟩
end

theorem sortedDocF_insertField (k : JStr) (v : JVal)
    (hv : sortedDocV v = true) :
    ∀ fs : JFields, sortedDocF fs = true →
      sortedDocF (insertField k v fs) = true
  | .nil, _ => by simp [insertField, sortedDocF, hv]
  | .cons k2 v2 rest, h => by
    simp only [sortedDocF, Bool.and_eq_true] at h
    by_cases hlt : jsLess k k2
    · simp only [insertField, hlt, if_true]
      simp [sortedDocF, hv, h.1, h.2]
    · simp only [insertField, hlt, if_false, Bool.false_eq_true]
      simp [sortedDocF, h.1, sortedDocF_insertField k v hv rest h.2]

theorem sortedDocF_sortFields : ∀ fs : JFields, sortedDocF fs = true →
    sortedDocF (sortFields fs) = true
  | .nil, _ => rfl
  | .cons k v rest, h => by
    simp only [sortedDocF, Bool.and_eq_true] at h
    show sortedDocF (insertField k v (sortFields rest)) = true
    exact sortedDocF_insertField k v h.1 (sortFields rest)
      (sortedDocF_sortFields rest h.2)

mutual
theorem procV_sorted : ∀ (v w : JVal), procEntry v = .ok w →
    sortedDocV w = true
  | .jnull, w, h => by simp [procEntry] at h
  | .jbool b, w, h => by
    simp only [procEntry, Except.ok.injEq] at h
    subst h
    rfl
  | .jnum n, w, h => by
    simp only [procEntry, Except.ok.injEq] at h
    subst h
    rfl
  | .jstr s, w, h => by
    simp only [procEntry, Except.ok.injEq] at h
    subst h
    rfl
  | .jarr es, w, h => by
    simp only [procEntry] at h
    cases hpl : procList 0 es with
    | error e => rw [hpl] at h; simp [Except.map] at h
    | ok pf =>
      rw [hpl] at h
      simp only [Except.map, Except.ok.injEq] at h
      subst h
      simp only [sortedDocV, Bool.and_eq_true]
      exact ⟨sort_sorted pf,
        sortedDocF_sortFields pf (procL_sorted 0 es pf hpl)⟩
  | .jobj fs, w, h => by
    simp only [procEntry] at h
    cases hpf : procFields fs with
    | error e => rw [hpf] at h; simp [Except.map] at h
    | ok pf =>
      rw [hpf] at h
      simp only [Except.map, Except.ok.injEq] at h
      subst h
      simp only [sortedDocV, Bool.and_eq_true]
      exact ⟨sort_sorted pf,
        sortedDocF_sortFields pf (procF_sorted fs pf hpf)⟩
theorem procL_sorted : ∀ (i : Nat) (es : JList) (pf : JFields),
    procList i es = .ok pf → sortedDocF pf = true
  | _, .nil, pf, h => by cases h; rfl
  | i, .cons v rest, pf, h => by
    simp only [procList] at h
    cases he : procEntry v with
    | error e => rw [he] at h; simp at h
    | ok w =>
      rw [he] at h
      cases hr : procList (i + 1) rest with
      | error e => rw [hr] at h; simp at h
      | ok r2 =>
        rw [hr] at h
        simp only [Except.ok.injEq] at h
        subst h
        simp only [sortedDocF, Bool.and_eq_true]
        exact ⟨procV_sorted v w he, procL_sorted (i + 1) rest r2 hr⟩
theorem procF_sorted : ∀ (fs pf : JFields),
    procFields fs = .ok pf → sortedDocF pf = true
  | .nil, pf, h => by cases h; rfl
  | .cons k v rest, pf, h => by
    simp only [procFields] at h
    cases he : procEntry v with
    | error e => rw [he] at h; simp at h
    | ok w =>
      rw [he] at h
      cases hr : procFields rest with
      | error e => rw [hr] at h; simp at h
      | ok r2 =>
        rw [hr] at h
        simp only [Except.ok.injEq] at h
        subst h
        simp only [sortedDocF, Bool.and_eq_true]
        exact ⟨procV_sorted v w he, procF_sorted rest r2 hr⟩
end

theorem natDigits_lt10 (i : Nat) (h : i < 10) : natDigits i = [48 + i] := by
  rw [natDigits_unfold]
  simp [h]

theorem procList_strict : ∀ (i : Nat) (es : JList) (pf : JFields),
    i + lenL es ≤ 10 → procList i es = .ok pf → keysStrictF pf = true
  | _, .nil, pf, _, h => by cases h; rfl
  | i, .cons v rest, pf, hlen, h => by
    simp only [procList] at h
    cases he : procEntry v with
    | error e => rw [he] at h; simp at h
    | ok w =>
      rw [he] at h
      cases hr : procList (i + 1) rest with
      | error e => rw [hr] at h; simp at h
      | ok r2 =>
        rw [hr] at h
        simp only [Except.ok.injEq] at h
        subst h
        cases rest with
        | nil =>
          simp only [procList, Except.ok.injEq] at hr
          subst hr
          rfl
        | cons v2 rest2 =>
          have hr0 := hr
          simp only [procList] at hr
          cases he2 : procEntry v2 with
          | error e => rw [he2] at hr; simp at hr
          | ok w2 =>
            rw [he2] at hr
            cases hr2 : procList (i + 2) rest2 with
            | error e => rw [hr2] at hr; simp at hr
            | ok r3 =>
              rw [hr2] at hr
              simp only [Except.ok.injEq] at hr
              subst hr
              simp only [lenL] at hlen
              have hstep : keysStrictF
                  (.cons (natDigits (i + 1)) w2 r3) = true := by
                have := procList_strict (i + 1) (.cons v2 rest2)
                  (.cons (natDigits (i + 1)) w2 r3) (by simp [lenL]; omega) hr0
                exact this
              have hi : i < 10 := by omega
              have hi1 : i + 1 < 10 := by omega
              simp only [keysStrictF, Bool.and_eq_true]
              refine ⟨?_, hstep⟩
              rw [natDigits_lt10 i hi, natDigits_lt10 (i + 1) hi1]
              have hlt : 48 + i < 48 + (i + 1) := by omega
              simp [jsLess, hlt]

theorem sortFields_id_of_strict : ∀ fs : JFields, keysStrictF fs = true →
    sortFields fs = fs
  | .nil, _ => rfl
  | .cons k v .nil, _ => rfl
  | .cons k v (.cons k2 v2 rest2), h => by
    simp only [keysStrictF, Bool.and_eq_true] at h
    show insertField k v (sortFields (.cons k2 v2 rest2)) = _
    rw [sortFields_id_of_strict (.cons k2 v2 rest2) h.2]
    simp [insertField, h.1]

theorem sortObject_error_of_null (fs : JFields) (h : nullFreeF fs = false) :
    sortObject fs = .error () := by
  have h2 : procFields fs = .error () := by
    apply error_unit_of_not_ok
    rw [procFields_isOk]
    exact h
  simp [sortObject, h2, Except.map]

theorem plainFields_nullFree : ∀ l : List (JStr × JStr),
    nullFreeF (plainFields l) = true
  | [] => rfl
  | (k, v) :: rest => by
    simp [plainFields, nullFreeF, nullFreeV, plainFields_nullFree rest]

theorem consIfPresent_nullFree (k : JStr) (v : Option JStr) (rest : JFields)
    (h : nullFreeF rest = true) :
    nullFreeF (consIfPresent k v rest) = true := by
  cases v with
  | none => simpa [consIfPresent] using h
  | some s => simp [consIfPresent, nullFreeF, nullFreeV, h]

theorem metaSerializable_nullFree (m : Meta) :
    nullFreeF (metaSerializable m) = true := by
  unfold metaSerializable
  apply consIfPresent_nullFree
  simp only [nullFreeF, nullFreeV, Bool.and_eq_true]
  refine ⟨trivial, trivial, trivial, plainFields_nullFree m.plain, ?_⟩
  exact consIfPresent_nullFree _ _ _
    (consIfPresent_nullFree _ _ _ (consIfPresent_nullFree _ _ _ rfl))

theorem signableStringify_isOk (fs : JFields) :
    isOkE (signableStringify fs) = nullFreeF fs := by
  simp [signableStringify, sortObject, isOkE_map, procFields_isOk]


theorem fAppend_nil : ∀ a : JFields, fAppend a .nil = a
  | .nil => rfl
  | .cons k v rest => by simp [fAppend, fAppend_nil rest]

theorem fAppend_insIdx_perm (k : JStr) (v : JVal) :
    ∀ (I S : JFields),
      FPermP (.cons k v (fAppend I S)) (fAppend (insIdx k v I) S)
  | .nil, S => by
    show FPermP (.cons k v (fAppend .nil S)) (fAppend (insIdx k v .nil) S)
    simp only [insIdx, fAppend]
    exact pRefl _
  | .cons k2 v2 I2, S => by
    by_cases h : evalD k < evalD k2
    · simp only [insIdx, h, if_true, fAppend]
      exact pRefl _
    · simp only [insIdx, h, if_false, fAppend]
      exact .trans (.swap k k2 v v2 _)
        (.cons k2 v2 (fAppend_insIdx_perm k v I2 S))

theorem fAppend_consR_perm (k : JStr) (v : JVal) :
    ∀ (I S : JFields),
      FPermP (.cons k v (fAppend I S)) (fAppend I (.cons k v S))
  | .nil, S => pRefl _
  | .cons k2 v2 I2, S =>
    .trans (.swap k k2 v v2 (fAppend I2 S))
      (.cons k2 v2 (fAppend_consR_perm k v I2 S))

theorem enum_perm : ∀ fs : JFields, FPermP fs (enumFields fs)
  | .nil => .nil
  | .cons k v rest => by
    by_cases h : isArrayIndex k
    · show FPermP (.cons k v rest)
        (fAppend (idxPart (.cons k v rest)) (strPart (.cons k v rest)))
      simp only [idxPart, strPart, h, if_true]
      exact .trans (.cons k v (enum_perm rest))
        (fAppend_insIdx_perm k v (idxPart rest) (strPart rest))
    · show FPermP (.cons k v rest)
        (fAppend (idxPart (.cons k v rest)) (strPart (.cons k v rest)))
      simp only [idxPart, strPart, h, if_false, Bool.false_eq_true]
      exact .trans (.cons k v (enum_perm rest))
        (fAppend_consR_perm k v (idxPart rest) (strPart rest))

theorem enumFields_inj_of_keys {a b : JFields}
    (hk : fieldKeys a = fieldKeys b) (hnd : (fieldKeys a).Nodup)
    (h : enumFields a = enumFields b) : a = b := by
  have hab : FPermP a b := by
    refine .trans (enum_perm a) ?_
    rw [h]
    exact FPermP_symm (enum_perm b)
  exact fields_eq_of_lookup a b hk hnd (fLookup_permP hab hnd)

theorem wfF_permP {a b : JFields} (h : FPermP a b) : wfF a = wfF b := by
  induction h with
  | nil => rfl
  | cons k v _ ih => simp [wfF, ih]
  | swap k1 k2 v1 v2 fs =>
    simp only [wfF]
    rw [← Bool.and_assoc, ← Bool.and_assoc, Bool.and_comm (wfV v1)]
  | trans _ _ ih1 ih2 => rw [ih1, ih2]

theorem allIdxF_permP {a b : JFields} (h : FPermP a b) :
    allIdxF a = allIdxF b := by
  induction h with
  | nil => rfl
  | cons k v _ ih => simp [allIdxF, ih]
  | swap k1 k2 v1 v2 fs =>
    simp only [allIdxF]
    rw [← Bool.and_assoc, ← Bool.and_assoc, Bool.and_comm (isArrayIndex k1)]
  | trans _ _ ih1 ih2 => rw [ih1, ih2]

theorem insIdx_comm (k1 k2 : JStr) (v1 v2 : JVal)
    (hne : ¬ evalD k1 = evalD k2) :
    ∀ q : JFields,
      insIdx k1 v1 (insIdx k2 v2 q) = insIdx k2 v2 (insIdx k1 v1 q)
  | .nil => by
    by_cases h : evalD k1 < evalD k2
    · have h2 : ¬ evalD k2 < evalD k1 := by omega
      simp [insIdx, h, h2]
    · have h2 : evalD k2 < evalD k1 := by omega
      simp [insIdx, h, h2]
  | .cons k3 v3 rest => by
    by_cases h23 : evalD k2 < evalD k3
    · by_cases h13 : evalD k1 < evalD k3
      · by_cases h12 : evalD k1 < evalD k2
        · have h21 : ¬ evalD k2 < evalD k1 := by omega
          simp [insIdx, h23, h13, h12, h21]
        · have h21 : evalD k2 < evalD k1 := by omega
          simp [insIdx, h23, h13, h12, h21]
      · have h12 : ¬ evalD k1 < evalD k2 := by omega
        have h21 : evalD k2 < evalD k1 := by omega
        simp [insIdx, h23, h13, h12, h21]
    · by_cases h13 : evalD k1 < evalD k3
      · have h12 : evalD k1 < evalD k2 := by omega
        have h21 : ¬ evalD k2 < evalD k1 := by omega
        simp [insIdx, h23, h13, h12, h21]
      · simp [insIdx, h23, h13, insIdx_comm k1 k2 v1 v2 hne rest]

theorem idxPart_permP {a b : JFields} (h : FPermP a b) :
    ((fieldKeys a).map evalD).Nodup → idxPart a = idxPart b := by
  induction h with
  | nil => intro _; rfl
  | cons k v _ ih =>
    intro hnd
    simp only [fieldKeys, List.map_cons, List.nodup_cons] at hnd
    by_cases hk : isArrayIndex k
    · simp [idxPart, hk, ih hnd.2]
    · simp [idxPart, hk, ih hnd.2]
  | swap k1 k2 v1 v2 fs =>
    intro hnd
    simp only [fieldKeys, List.map_cons, List.nodup_cons, List.mem_cons] at hnd
    push_neg at hnd
    by_cases h1 : isArrayIndex k1 <;> by_cases h2 : isArrayIndex k2
    · simp only [idxPart, h1, h2, if_true]
      exact insIdx_comm k1 k2 v1 v2 hnd.1.1 (idxPart fs)
    · simp [idxPart, h1, h2]
    · simp [idxPart, h1, h2]
    · simp [idxPart, h1, h2]
  | trans hab hbc ih1 ih2 =>
    intro hnd
    have hnd2 := (((FPermP_keys hab).map evalD)).nodup_iff.mp hnd
    rw [ih1 hnd, ih2 hnd2]

theorem evalAsc_head_lt : ∀ (k : JStr) (v : JVal) (rest : JFields),
    evalAscF (.cons k v rest) = true →
      ∀ k2 ∈ fieldKeys rest, evalD k < evalD k2
  | _, _, .nil, _, k2, h2 => by simp [fieldKeys] at h2
  | k, v, .cons k3 v3 rest3, h, k2, h2 => by
    simp only [evalAscF, Bool.and_eq_true, decide_eq_true_eq] at h
    simp only [fieldKeys, List.mem_cons] at h2
    cases h2 with
    | inl he => rw [he]; exact h.1
    | inr hm =>
      exact Nat.lt_trans h.1 (evalAsc_head_lt k3 v3 rest3 h.2 k2 hm)

theorem evalAsc_nodup : ∀ q : JFields, evalAscF q = true →
    ((fieldKeys q).map evalD).Nodup
  | .nil, _ => List.nodup_nil
  | .cons k v rest, h => by
    have htail : evalAscF rest = true := by
      cases rest with
      | nil => rfl
      | cons k3 v3 rest3 =>
        simp only [evalAscF, Bool.and_eq_true] at h
        exact h.2
    simp only [fieldKeys, List.map_cons, List.nodup_cons]
    refine ⟨?_, evalAsc_nodup rest htail⟩
    intro hmem
    simp only [List.mem_map] at hmem
    obtain ⟨k2, hk2, hek⟩ := hmem
    have := evalAsc_head_lt k v rest h k2 hk2
    omega

theorem idxPart_id_of_asc : ∀ q : JFields, evalAscF q = true →
    allIdxF q = true → idxPart q = q
  | .nil, _, _ => rfl
  | .cons k v .nil, _, hidx => by
    simp only [allIdxF, Bool.and_eq_true] at hidx
    simp [idxPart, hidx.1, insIdx]
  | .cons k v (.cons k3 v3 rest3), hasc, hidx => by
    simp only [allIdxF, Bool.and_eq_true] at hidx
    simp only [evalAscF, Bool.and_eq_true, decide_eq_true_eq] at hasc
    have hidx2 : allIdxF (.cons k3 v3 rest3) = true := by
      simp [allIdxF, hidx.2.1, hidx.2.2]
    have ih := idxPart_id_of_asc (.cons k3 v3 rest3) hasc.2 hidx2
    simp only [idxPart, hidx.2.1, if_true] at ih
    simp only [idxPart, hidx.1, hidx.2.1, if_true]
    rw [ih]
    simp [insIdx, hasc.1]

theorem strPart_nil_of_allIdx : ∀ q : JFields, allIdxF q = true →
    strPart q = .nil
  | .nil, _ => rfl
  | .cons k v rest, h => by
    simp only [allIdxF, Bool.and_eq_true] at h
    simp [strPart, h.1, strPart_nil_of_allIdx rest h.2]

theorem enumFields_eq_of_allIdx (q : JFields) (h : allIdxF q = true) :
    enumFields q = idxPart q := by
  simp [enumFields, strPart_nil_of_allIdx q h, fAppend_nil]

theorem idxPart_nil_of_allStr : ∀ q : JFields, allStrF q = true →
    idxPart q = .nil
  | .nil, _ => rfl
  | .cons k v rest, h => by
    simp only [allStrF, Bool.and_eq_true, Bool.not_eq_true'] at h
    simp [idxPart, h.1, idxPart_nil_of_allStr rest h.2]

theorem strPart_id_of_allStr : ∀ q : JFields, allStrF q = true →
    strPart q = q
  | .nil, _ => rfl
  | .cons k v rest, h => by
    simp only [allStrF, Bool.and_eq_true, Bool.not_eq_true'] at h
    simp [strPart, h.1, strPart_id_of_allStr rest h.2]

theorem enumFields_id_of_allStr (q : JFields) (h : allStrF q = true) :
    enumFields q = q := by
  simp [enumFields, idxPart_nil_of_allStr q h, strPart_id_of_allStr q h,
    fAppend]

theorem insIdx_shape (k : JStr) {v v' : JVal} (hv : ShapeV v v') :
    ∀ (a b : JFields), ShapeF a b →
      ShapeF (insIdx k v a) (insIdx k v' b)
  | .nil, _, h => by cases h; exact .cons k hv .nil
  | .cons k2 v2 rest, _, h => by
    cases h with
    | cons _ hv2 hrest =>
      rename_i v2' rest'
      by_cases hlt : evalD k < evalD k2
      · simp only [insIdx, hlt, if_true]
        exact .cons k hv (.cons k2 hv2 hrest)
      · simp only [insIdx, hlt, if_false]
        exact .cons k2 hv2 (insIdx_shape k hv rest rest' hrest)

theorem idxPart_shape : ∀ (a b : JFields), ShapeF a b →
    ShapeF (idxPart a) (idxPart b)
  | .nil, _, h => by cases h; exact .nil
  | .cons k v rest, _, h => by
    cases h with
    | cons _ hv hrest =>
      rename_i v' rest'
      by_cases hk : isArrayIndex k
      · simp only [idxPart, hk, if_true]
        exact insIdx_shape k hv _ _ (idxPart_shape rest rest' hrest)
      · simp only [idxPart, hk, if_false, Bool.false_eq_true]
        exact idxPart_shape rest rest' hrest

theorem strPart_shape : ∀ (a b : JFields), ShapeF a b →
    ShapeF (strPart a) (strPart b)
  | .nil, _, h => by cases h; exact .nil
  | .cons k v rest, _, h => by
    cases h with
    | cons _ hv hrest =>
      rename_i v' rest'
      by_cases hk : isArrayIndex k
      · simp only [strPart, hk, if_true]
        exact strPart_shape rest rest' hrest
      · simp only [strPart, hk, if_false, Bool.false_eq_true]
        exact .cons k hv (strPart_shape rest rest' hrest)

theorem fAppend_shape : ∀ (a b : JFields), ShapeF a b →
    ∀ (c d : JFields), ShapeF c d → ShapeF (fAppend a c) (fAppend b d)
  | .nil, _, h, c, d, h2 => by cases h; exact h2
  | .cons k v rest, _, h, c, d, h2 => by
    cases h with
    | cons _ hv hrest =>
      rename_i v' rest'
      show ShapeF (.cons k v (fAppend rest c)) (.cons k v' (fAppend rest' d))
      exact .cons k hv (fAppend_shape rest rest' hrest c d h2)

theorem enumFields_shape {a b : JFields} (h : ShapeF a b) :
    ShapeF (enumFields a) (enumFields b) :=
  fAppend_shape _ _ (idxPart_shape a b h) _ _ (strPart_shape a b h)

mutual
theorem enumDeepV_shape : ∀ (v v' : JVal), ShapeV v v' →
    ShapeV (enumDeepV v) (enumDeepV v')
  | .jnull, _, h => by cases h; exact .snull
  | .jbool b, _, h => by
    cases h with
    | sbool _ b' => exact .sbool b b'
  | .jnum n, _, h => by
    cases h with
    | snum _ n' => exact .snum n n'
  | .jstr s, _, h => by
    cases h with
    | sstr _ s' => exact .sstr s s'
  | .jarr es, _, h => by
    cases h with
    | sarr hes =>
      rename_i es'
      exact .sarr (enumDeepL_shape es es' hes)
  | .jobj fs, _, h => by
    cases h with
    | sobj hfs =>
      rename_i fs'
      exact .sobj (enumFields_shape (enumDeepF_shape fs fs' hfs))
theorem enumDeepL_shape : ∀ (es es' : JList), ShapeL es es' →
    ShapeL (enumDeepL es) (enumDeepL es')
  | .nil, _, h => by cases h; exact .nil
  | .cons v rest, _, h => by
    cases h with
    | cons hv hrest =>
      rename_i v' rest'
      exact .cons (enumDeepV_shape v v' hv) (enumDeepL_shape rest rest' hrest)
theorem enumDeepF_shape : ∀ (fs fs' : JFields), ShapeF fs fs' →
    ShapeF (enumDeepF fs) (enumDeepF fs')
  | .nil, _, h => by cases h; exact .nil
  | .cons k v rest, _, h => by
    cases h with
    | cons _ hv hrest =>
      rename_i v' rest'
      exact .cons k (enumDeepV_shape v v' hv)
        (enumDeepF_shape rest rest' hrest)
end

theorem fieldKeys_enumDeepF : ∀ fs : JFields,
    fieldKeys (enumDeepF fs) = fieldKeys fs
  | .nil => rfl
  | .cons k v rest => by
    simp [enumDeepF, fieldKeys, fieldKeys_enumDeepF rest]

mutual
theorem procV_wf : ∀ (v w : JVal), procEntry v = .ok w → wfV v = true →
    wfV w = true
  | .jnull, _, h, _ => by simp [procEntry] at h
  | .jbool b, w, h, _ => by
    simp only [procEntry, Except.ok.injEq] at h
    subst h
    rfl
  | .jnum n, w, h, _ => by
    simp only [procEntry, Except.ok.injEq] at h
    subst h
    rfl
  | .jstr s, w, h, _ => by
    simp only [procEntry, Except.ok.injEq] at h
    subst h
    rfl
  | .jarr es, w, h, hwf => by
    simp only [procEntry] at h
    cases hpl : procList 0 es with
    | error e => rw [hpl] at h; simp [Except.map] at h
    | ok pf =>
      rw [hpl] at h
      simp only [Except.map, Except.ok.injEq] at h
      subst h
      simp only [wfV, Bool.and_eq_true, decide_eq_true_eq]
      constructor
      · have h2 : (fieldKeys pf).Nodup := by
          rw [procList_keys 0 es pf hpl]
          exact idxKeys_nodup 0 es
        exact (FPermP_keys (sort_perm pf)).nodup_iff.mp h2
      · rw [← wfF_permP (sort_perm pf)]
        exact procL_wf 0 es pf hpl (by simpa [wfV] using hwf)
  | .jobj fs, w, h, hwf => by
    simp only [procEntry] at h
    simp only [wfV, Bool.and_eq_true, decide_eq_true_eq] at hwf
    cases hpf : procFields fs with
    | error e => rw [hpf] at h; simp [Except.map] at h
    | ok pf =>
      rw [hpf] at h
      simp only [Except.map, Except.ok.injEq] at h
      subst h
      simp only [wfV, Bool.and_eq_true, decide_eq_true_eq]
      constructor
      · have h2 : (fieldKeys pf).Nodup := by
          rw [procFields_keys fs pf hpf]
          exact hwf.1
        exact (FPermP_keys (sort_perm pf)).nodup_iff.mp h2
      · rw [← wfF_permP (sort_perm pf)]
        exact procF_wf fs pf hpf hwf.2
theorem procL_wf : ∀ (i : Nat) (es : JList) (pf : JFields),
    procList i es = .ok pf → wfL es = true → wfF pf = true
  | _, .nil, pf, h, _ => by cases h; rfl
  | i, .cons v rest, pf, h, hwf => by
    simp only [wfL, Bool.and_eq_true] at hwf
    simp only [procList] at h
    cases he : procEntry v with
    | error e => rw [he] at h; simp at h
    | ok w =>
      rw [he] at h
      cases hr : procList (i + 1) rest with
      | error e => rw [hr] at h; simp at h
      | ok r2 =>
        rw [hr] at h
        simp only [Except.ok.injEq] at h
        subst h
        simp only [wfF, Bool.and_eq_true]
        exact ⟨procV_wf v w he hwf.1, procL_wf (i + 1) rest r2 hr hwf.2⟩
theorem procF_wf : ∀ (fs pf : JFields),
    procFields fs = .ok pf → wfF fs = true → wfF pf = true
  | .nil, pf, h, _ => by cases h; rfl
  | .cons k v rest, pf, h, hwf => by
    simp only [wfF, Bool.and_eq_true] at hwf
    simp only [procFields] at h
    cases he : procEntry v with
    | error e => rw [he] at h; simp at h
    | ok w =>
      rw [he] at h
      cases hr : procFields rest with
      | error e => rw [hr] at h; simp at h
      | ok r2 =>
        rw [hr] at h
        simp only [Except.ok.injEq] at h
        subst h
        simp only [wfF, Bool.and_eq_true]
        exact ⟨procV_wf v w he hwf.1, procF_wf rest r2 hr hwf.2⟩
end

mutual
theorem enumDeepV_inj : ∀ (v v' : JVal), ShapeV v v' → wfV v = true →
    enumDeepV v = enumDeepV v' → v = v'
  | .jnull, _, h, _, _ => by cases h; rfl
  | .jbool b, _, h, _, he => by
    cases h with
    | sbool _ b' =>
      simp only [enumDeepV, JVal.jbool.injEq] at he
      rw [he]
  | .jnum n, _, h, _, he => by
    cases h with
    | snum _ n' =>
      simp only [enumDeepV, JVal.jnum.injEq] at he
      rw [he]
  | .jstr s, _, h, _, he => by
    cases h with
    | sstr _ s' =>
      simp only [enumDeepV, JVal.jstr.injEq] at he
      rw [he]
  | .jarr es, _, h, hwf, he => by
    cases h with
    | sarr hes =>
      rename_i es'
      simp only [enumDeepV, JVal.jarr.injEq] at he
      rw [enumDeepL_inj es es' hes (by simpa [wfV] using hwf) he]
  | .jobj fs, _, h, hwf, he => by
    cases h with
    | sobj hfs =>
      rename_i fs'
      simp only [enumDeepV, JVal.jobj.injEq] at he
      simp only [wfV, Bool.and_eq_true, decide_eq_true_eq] at hwf
      have hk : fieldKeys (enumDeepF fs) = fieldKeys (enumDeepF fs') := by
        rw [fieldKeys_enumDeepF, fieldKeys_enumDeepF]
        exact ShapeF_keys fs fs' hfs
      have hnd : (fieldKeys (enumDeepF fs)).Nodup := by
        rw [fieldKeys_enumDeepF]
        exact hwf.1
      have h2 : enumDeepF fs = enumDeepF fs' :=
        enumFields_inj_of_keys hk hnd he
      rw [enumDeepF_inj fs fs' hfs hwf.2 h2]
theorem enumDeepL_inj : ∀ (es es' : JList), ShapeL es es' → wfL es = true →
    enumDeepL es = enumDeepL es' → es = es'
  | .nil, _, h, _, _ => by cases h; rfl
  | .cons v rest, _, h, hwf, he => by
    cases h with
    | cons hv hrest =>
      rename_i v' rest'
      simp only [wfL, Bool.and_eq_true] at hwf
      simp only [enumDeepL, JList.cons.injEq] at he
      rw [enumDeepV_inj v v' hv hwf.1 he.1,
        enumDeepL_inj rest rest' hrest hwf.2 he.2]
theorem enumDeepF_inj : ∀ (fs fs' : JFields), ShapeF fs fs' →
    wfF fs = true → enumDeepF fs = enumDeepF fs' → fs = fs'
  | .nil, _, h, _, _ => by cases h; rfl
  | .cons k v rest, _, h, hwf, he => by
    cases h with
    | cons _ hv hrest =>
      rename_i v' rest'
      simp only [wfF, Bool.and_eq_true] at hwf
      simp only [enumDeepF, JFields.cons.injEq] at he
      rw [enumDeepV_inj v v' hv hwf.1 he.2.1,
        enumDeepF_inj rest rest' hrest hwf.2 he.2.2]
end

theorem natDigitsAux_head : ∀ (fuel n : Nat), 1 ≤ n → n ≤ fuel →
    ∃ c r, natDigitsAux fuel n = c :: r ∧ 49 ≤ c ∧ c ≤ 57
  | 0, n, h1, h2 => by omega
  | fuel + 1, n, h1, _ => by
    by_cases hn : n < 10
    · exact ⟨48 + n, [], by simp [natDigitsAux, hn], by omega, by omega⟩
    · obtain ⟨c, r, heq, hc1, hc2⟩ :=
        natDigitsAux_head fuel (n / 10) (by omega) (by omega)
      exact ⟨c, r ++ [48 + n % 10], by simp [natDigitsAux, hn, heq],
        hc1, hc2⟩

theorem natDigits_head (j : Nat) (h : 1 ≤ j) :
    ∃ c r, natDigits j = c :: r ∧ 49 ≤ c ∧ c ≤ 57 :=
  natDigitsAux_head j j h (le_refl j)

theorem isArrayIndex_natDigits (j : Nat) (h : j < 4294967295) :
    isArrayIndex (natDigits j) = true := by
  cases Nat.eq_zero_or_pos j with
  | inl h0 =>
    subst h0
    decide
  | inr hpos =>
    obtain ⟨c, r, heq, hc1, hc2⟩ := natDigits_head j hpos
    rw [heq]
    simp only [isArrayIndex, Bool.or_eq_true, Bool.and_eq_true,
      decide_eq_true_eq]
    right
    refine ⟨⟨⟨hc1, hc2⟩, ?_⟩, ?_⟩
    · rw [List.all_eq_true]
      intro x hx
      exact natDigits_all_digits j x
        (by rw [heq]; exact List.mem_cons_of_mem c hx)
    · rw [← heq, evalD_natDigits]
      exact h

theorem procList_evalAsc : ∀ (i : Nat) (es : JList) (pf : JFields),
    procList i es = .ok pf → evalAscF pf = true
  | _, .nil, pf, h => by cases h; rfl
  | i, .cons v rest, pf, h => by
    simp only [procList] at h
    cases he : procEntry v with
    | error e => rw [he] at h; simp at h
    | ok w =>
      rw [he] at h
      cases hr : procList (i + 1) rest with
      | error e => rw [hr] at h; simp at h
      | ok r2 =>
        rw [hr] at h
        simp only [Except.ok.injEq] at h
        subst h
        cases rest with
        | nil =>
          simp only [procList, Except.ok.injEq] at hr
          subst hr
          rfl
        | cons v2 rest2 =>
          have hr0 := hr
          simp only [procList] at hr
          cases he2 : procEntry v2 with
          | error e => rw [he2] at hr; simp at hr
          | ok w2 =>
            rw [he2] at hr
            cases hr2 : procList (i + 2) rest2 with
            | error e => rw [hr2] at hr; simp at hr
            | ok r3 =>
              rw [hr2] at hr
              simp only [Except.ok.injEq] at hr
              subst hr
              have hstep := procList_evalAsc (i + 1) (.cons v2 rest2) _ hr0
              simp only [evalAscF, Bool.and_eq_true, decide_eq_true_eq]
              refine ⟨?_, hstep⟩
              rw [evalD_natDigits, evalD_natDigits]
              omega

theorem procList_allIdx : ∀ (i : Nat) (es : JList) (pf : JFields),
    i + lenL es ≤ 4294967295 → procList i es = .ok pf →
      allIdxF pf = true
  | _, .nil, pf, _, h => by cases h; rfl
  | i, .cons v rest, pf, hlen, h => by
    simp only [procList] at h
    cases he : procEntry v with
    | error e => rw [he] at h; simp at h
    | ok w =>
      rw [he] at h
      cases hr : procList (i + 1) rest with
      | error e => rw [hr] at h; simp at h
      | ok r2 =>
        rw [hr] at h
        simp only [Except.ok.injEq] at h
        subst h
        simp only [lenL] at hlen
        simp only [allIdxF, Bool.and_eq_true]
        exact ⟨isArrayIndex_natDigits i (by omega),
          procList_allIdx (i + 1) rest r2 (by omega) hr⟩

theorem enumFields_sortFields_idx (es : JList) (pf : JFields)
    (hlen : lenL es ≤ 4294967295) (h : procList 0 es = .ok pf) :
    enumFields (sortFields pf) = pf := by
  have hidx : allIdxF pf = true := procList_allIdx 0 es pf (by omega) h
  have hasc : evalAscF pf = true := procList_evalAsc 0 es pf h
  have hidx2 : allIdxF (sortFields pf) = true := by
    rw [← allIdxF_permP (sort_perm pf)]
    exact hidx
  have hnd : ((fieldKeys pf).map evalD).Nodup := evalAsc_nodup pf hasc
  have hnd2 : ((fieldKeys (sortFields pf)).map evalD).Nodup :=
    (((FPermP_keys (sort_perm pf)).map evalD)).nodup_iff.mp hnd
  rw [enumFields_eq_of_allIdx (sortFields pf) hidx2,
    idxPart_permP (FPermP_symm (sort_perm pf)) hnd2,
    idxPart_id_of_asc pf hasc hidx]

/-- C2: `Signable.stringify` (the `JSON.stringify ∘ sortObject` canonical
serialization, with `JSON.stringify` visiting properties in the engine's
enumeration order) is invariant under reordering the keys of any object
at any nesting depth in a well-formed document (part one), and on
null-free well-formed documents it is injective on the leaf values: two
documents of the same shape — equal except possibly in leaf values —
that serialize to the same byte string are equal (part two).  The
original claim's unrestricted leaf-injectivity is false: a `null`
anywhere makes `sortObject` throw (`Object.keys(null)`), so two
documents differing in a leaf can both fail identically — see the
counterexample theorem, and the C3 counterexample for the original
claim's "keys sorted by code-unit order", which the emitted bytes
violate on array-index keys. -/
theorem canonical_key_order_invariant_and_null_free_leaf_injective :
    (∀ fs mid fs' : JFields, FAligned fs mid → FPermP mid fs' →
        wfV (.jobj fs) = true →
        signableStringify fs = signableStringify fs')
    ∧ (∀ fs fs' : JFields, ShapeF fs fs' →
        wfV (.jobj fs) = true → nullFreeF fs = true →
        nullFreeF fs' = true →
        signableStringify fs = signableStringify fs' → fs = fs') := by
  constructor
  · intro fs mid fs' hal hperm hwf
    have h := invV (.jobj fs) (.jobj fs') (.vobj hal hperm) hwf
    simp only [procEntry] at h
    cases hpf : procFields fs with
    | error e =>
      rw [hpf] at h
      cases hpf2 : procFields fs' with
      | error e2 =>
        cases e
        cases e2
        simp [signableStringify, sortObject, hpf, hpf2, Except.map]
      | ok pf2 => rw [hpf2] at h; simp [Except.map] at h
    | ok pf =>
      rw [hpf] at h
      cases hpf2 : procFields fs' with
      | error e2 => rw [hpf2] at h; simp [Except.map] at h
      | ok pf2 =>
        rw [hpf2] at h
        simp only [Except.map, Except.ok.injEq, JVal.jobj.injEq] at h
        simp [signableStringify, sortObject, hpf, hpf2, Except.map, h]
  · intro fs fs' hsh hwf hnf hnf' heq
    simp only [wfV, Bool.and_eq_true, decide_eq_true_eq] at hwf
    have hok : isOkE (procFields fs) = true := by
      rw [procFields_isOk]
      exact hnf
    have hok' : isOkE (procFields fs') = true := by
      rw [procFields_isOk]
      exact hnf'
    cases hpf : procFields fs with
    | error e => rw [hpf] at hok; simp [isOkE] at hok
    | ok pf =>
      cases hpf2 : procFields fs' with
      | error e => rw [hpf2] at hok'; simp [isOkE] at hok'
      | ok pf2 =>
        simp only [signableStringify, sortObject, hpf, hpf2, Except.map,
          Except.ok.injEq] at heq
        have hshp : ShapeF (sortFields pf) (sortFields pf2) :=
          sort_shape pf pf2 (procF_shape fs fs' hsh pf pf2 hpf hpf2)
        have h5 : renderVal (enumDeepV (.jobj (sortFields pf))) ++ [] =
            renderVal (enumDeepV (.jobj (sortFields pf2))) ++ [] := by
          simp [heq]
        obtain ⟨hvv, _⟩ := rendV_inj (enumDeepV (.jobj (sortFields pf)))
          (enumDeepV (.jobj (sortFields pf2)))
          (enumDeepV_shape _ _ (.sobj hshp)) [] [] rfl rfl h5
        have hwfs : wfV (.jobj (sortFields pf)) = true := by
          simp only [wfV, Bool.and_eq_true, decide_eq_true_eq]
          constructor
          · have h6 : (fieldKeys pf).Nodup := by
              rw [procFields_keys fs pf hpf]
              exact hwf.1
            exact (FPermP_keys (sort_perm pf)).nodup_iff.mp h6
          · rw [← wfF_permP (sort_perm pf)]
            exact procF_wf fs pf hpf hwf.2
        have hvv2 : (.jobj (sortFields pf) : JVal) = .jobj (sortFields pf2) :=
          enumDeepV_inj _ _ (.sobj hshp) hwfs hvv
        simp only [JVal.jobj.injEq] at hvv2
        have hk : fieldKeys pf = fieldKeys pf2 := by
          rw [procFields_keys fs pf hpf, procFields_keys fs' pf2 hpf2]
          exact ShapeF_keys fs fs' hsh
        have hnd : (fieldKeys pf).Nodup := by
          rw [procFields_keys fs pf hpf]
          exact hwf.1
        have hpp : pf = pf2 := sortFields_inj_of_keys hk hnd hvv2
        rw [← hpp] at hpf2
        exact procF_inj fs fs' hsh hwf.2 pf hpf hpf2

/-- C2 counterexample: `nullLeafDocA` and `nullLeafDocB` have the same
shape and the same keys, differ in the string leaf under `"b"`, yet
serialize to the same result — both throw (`Object.keys(null)` on the
`null` under `"a"`), so their canonical byte strings do not differ. -/
theorem canonical_null_leaf_collision_cex :
    ShapeF nullLeafDocA nullLeafDocB ∧ nullLeafDocA ≠ nullLeafDocB ∧
      signableStringify nullLeafDocA = signableStringify nullLeafDocB ∧
      signableStringify nullLeafDocA = .error () := by
  refine ⟨?_, by decide, rfl, rfl⟩
  exact .cons [97] .snull (.cons [98] (.sstr [120] [121]) .nil)

/-- Witness for C2: part one applied to `\x7b"b":"x","a":1\x7d` and its
key-swapped form, part two applied to `\x7b"a":2\x7d` against itself. -/
theorem canonical_key_order_invariant_and_null_free_leaf_injective_witness :
    signableStringify swapDocA = signableStringify swapDocB ∧
      flatDoc = flatDoc := by
  constructor
  · exact canonical_key_order_invariant_and_null_free_leaf_injective.1
      swapDocA swapDocA swapDocB
      (.cons [98] (.vstr [120]) (.cons [97] (.vnum 1) .nil))
      (.swap [98] [97] (.jstr [120]) (.jnum 1) .nil)
      (by decide)
  · exact canonical_key_order_invariant_and_null_free_leaf_injective.2
      flatDoc flatDoc (.cons [97] (.snum 2 2) .nil)
      (by decide) (by decide) (by decide) rfl

/-- C3: what the canonical serialization actually does, against the
claim's three parts.  (1) Sorting is recursive: every successful
`sortObject` output rebuilds every object, at every depth, by inserting
its keys in code-unit sorted order.  (2) The emitted bytes follow the
engine's property enumeration: for an object with no array-index keys —
every snake-case wire object this client signs — that is exactly the
sorted insertion order; array-index keys, however, are emitted first in
ascending numeric order (see the counterexample).  (3) Arrays are not
kept as arrays: each array is rebuilt as a plain object keyed by its
decimal index strings, and since the engine enumerates those in
ascending numeric order, the elements keep their original order for
arrays of every (JS-representable) length.  (4) A `null`-valued field
is NOT omitted by the serializer: any `null` anywhere makes it throw;
the omission the spec describes happens earlier, in `Meta.serializable`,
whose output is always null-free and therefore always serializes
successfully. -/
theorem canonical_sorts_recursively_arrays_reindexed_null_throws :
    (∀ fs out : JFields, sortObject fs = .ok out →
        keysSortedF out = true ∧ sortedDocF out = true)
    ∧ (∀ fs : JFields, allStrF fs = true → enumFields fs = fs)
    ∧ (∀ (es : JList) (pf : JFields), lenL es ≤ 4294967295 →
        procList 0 es = .ok pf →
        procEntry (.jarr es) = .ok (.jobj (sortFields pf)) ∧
          fieldKeys pf = idxKeys 0 es ∧
          enumFields (sortFields pf) = pf)
    ∧ (∀ fs : JFields, nullFreeF fs = false →
        signableStringify fs = .error ())
    ∧ (∀ m : Meta, nullFreeF (metaSerializable m) = true ∧
        isOkE (signableStringify (metaSerializable m)) = true) := by
  refine ⟨?_, ?_, ?_, ?_, ?_⟩
  · intro fs out h
    simp only [sortObject] at h
    cases hpf : procFields fs with
    | error e => rw [hpf] at h; simp [Except.map] at h
    | ok pf =>
      rw [hpf] at h
      simp only [Except.map, Except.ok.injEq] at h
      subst h
      exact ⟨sort_sorted pf,
        sortedDocF_sortFields pf (procF_sorted fs pf hpf)⟩
  · intro fs h
    exact enumFields_id_of_allStr fs h
  · intro es pf hlen h
    refine ⟨?_, procList_keys 0 es pf h,
      enumFields_sortFields_idx es pf hlen h⟩
    simp [procEntry, h, Except.map]
  · intro fs h
    simp [signableStringify, sortObject_error_of_null fs h, Except.map]
  · intro m
    refine ⟨metaSerializable_nullFree m, ?_⟩
    rw [signableStringify_isOk]
    exact metaSerializable_nullFree m

/-- C3 counterexample: for `\x7b"10": 1, "9": 0\x7d` the program's
canonical bytes are `\x7b"9":0,"10":1\x7d` — the engine enumerates
array-index keys in ascending numeric order — even though code-unit
order sorts `"10"` before `"9"` (`jsLess "10" "9" = true`) and the
rebuilt entry list does hold `"10"` first; so the emitted keys are not
in code-unit sorted order.  And a `null`-valued field makes the
serializer throw instead of omitting the field. -/
theorem canonical_integer_keys_and_null_throw_cex :
    signableStringify idxDoc = .ok idxDocBytes
    ∧ jsLess [49, 48] [57] = true
    ∧ renderVal (.jobj idxDoc) = idxDocBytesSorted
    ∧ idxDocBytes ≠ idxDocBytesSorted
    ∧ signableStringify (.cons [97] .jnull .nil) = .error () :=
  ⟨rfl, rfl, rfl, by decide, rfl⟩

/-- Witness for C3: the five parts applied to `nestedDoc`, the flat
no-index-key document, the two-element array `twoArr`, the
single-null-field document, and a concrete `Meta`. -/
theorem canonical_sorts_recursively_arrays_reindexed_null_throws_witness :
    ((keysSortedF nestedSorted = true ∧ sortedDocF nestedSorted = true)
    ∧ enumFields flatDoc = flatDoc
    ∧ (procEntry (.jarr twoArr) = .ok (.jobj twoArrObj) ∧
        fieldKeys twoArrObj = idxKeys 0 twoArr ∧
        enumFields twoArrObj = twoArrObj)
    ∧ signableStringify (.cons [97] .jnull .nil) = .error ()
    ∧ (nullFreeF (metaSerializable (Meta.init [65] [66] [67]
        [([112], [113])])) = true ∧
      isOkE (signableStringify (metaSerializable (Meta.init [65] [66]
        [67] [([112], [113])]))) = true)) := by
  refine ⟨?_, ?_, ?_, ?_, ?_⟩
  · exact canonical_sorts_recursively_arrays_reindexed_null_throws.1
      nestedDoc nestedSorted rfl
  · exact canonical_sorts_recursively_arrays_reindexed_null_throws.2.1
      flatDoc (by decide)
  · exact canonical_sorts_recursively_arrays_reindexed_null_throws.2.2.1
      twoArr twoArrObj (by decide) rfl
  · exact canonical_sorts_recursively_arrays_reindexed_null_throws.2.2.2.1
      (.cons [97] .jnull .nil) rfl
  · exact canonical_sorts_recursively_arrays_reindexed_null_throws.2.2.2.2
      (Meta.init [65] [66] [67] [([112], [113])])
